import Mathlib

/-!
Shallow embedding of the ingredient-parsing core of the Cocktailsite
repository (src/lib/ingredients/parser.ts, src/lib/ingredients/fuzzy.ts,
src/lib/ingredients/master-data.ts and the helpers of src/lib/utils.ts),
together with proofs settling the frozen claims about it.

Strings are modelled as `List Char`, one entry per UTF-16 code unit of the
JavaScript string (every character handled by the program lies in the basic
multilingual plane).  Numbers that the program stores in JavaScript `number`
fields are modelled as exact rationals; the values the claims compare are
small decimal fractions on which IEEE doubles and exact rationals agree.
JavaScript builtins with full-Unicode behaviour (`String.normalize("NFD")`,
the `\p{Diacritic}` class, `toLowerCase`, the `\s` class) are modelled by
finite tables covering the Latin repertoire the program's vocabulary and
inputs use.
-/

namespace CocktailSite

/-- A JavaScript string: one list entry per UTF-16 code unit. -/
abbrev Str := List Char

/-- Model of the JavaScript `\s` regex class and of the characters removed by
`String.prototype.trim`, restricted to the whitespace the program meets. -/
def isWsChar (c : Char) : Bool :=
  c = ' ' || c = '\t' || c = '\n' || c = '\r' || c = '\x0b' || c = '\x0c' || c = '\u00a0'

/-- The JavaScript `\d` class (ASCII digits). -/
def isDigitChar (c : Char) : Bool :=
  '0' ≤ c && c ≤ '9'

/-- The JavaScript `\w` class (ASCII letters, digits and underscore). -/
def isWordChar (c : Char) : Bool :=
  c.isAlpha || isDigitChar c || c = '_'

/-- ASCII-only lowercasing, the model for case-insensitive (`/i`) regex
matching of the ASCII keywords `filler`, `von`, `vom`, `mit`, `of`. -/
def asciiLower (c : Char) : Char :=
  if 'A' ≤ c && c ≤ 'Z' then Char.ofNat (c.toNat + 32) else c

/-- Lowercase mapping table modelling `String.prototype.toLowerCase` on the
characters the program's data uses: ASCII letters plus the precomposed
Latin letters of the vocabulary. -/
def lowerPairs : List (Char × Char) :=
  [('A', 'a'), ('B', 'b'), ('C', 'c'), ('D', 'd'), ('E', 'e'), ('F', 'f'),
   ('G', 'g'), ('H', 'h'), ('I', 'i'), ('J', 'j'), ('K', 'k'), ('L', 'l'),
   ('M', 'm'), ('N', 'n'), ('O', 'o'), ('P', 'p'), ('Q', 'q'), ('R', 'r'),
   ('S', 's'), ('T', 't'), ('U', 'u'), ('V', 'v'), ('W', 'w'), ('X', 'x'),
   ('Y', 'y'), ('Z', 'z'),
   ('À', 'à'), ('Á', 'á'), ('Ä', 'ä'), ('È', 'è'), ('É', 'é'),
   ('Ö', 'ö'), ('Ü', 'ü'), ('Ç', 'ç')]

/-- Model of `toLowerCase`, character by character. -/
def jsToLower (c : Char) : Char :=
  ((lowerPairs.find? (fun p => p.1 == c)).map Prod.snd).getD c

/-- Canonical decomposition table modelling `String.prototype.normalize("NFD")`
on the precomposed Latin letters occurring in the program's vocabulary. -/
def nfdPairs : List (Char × List Char) :=
  [('À', ['A', '\u0300']), ('Á', ['A', '\u0301']), ('Ä', ['A', '\u0308']),
   ('È', ['E', '\u0300']), ('É', ['E', '\u0301']),
   ('Ö', ['O', '\u0308']), ('Ü', ['U', '\u0308']), ('Ç', ['C', '\u0327']),
   ('à', ['a', '\u0300']), ('á', ['a', '\u0301']), ('ä', ['a', '\u0308']),
   ('è', ['e', '\u0300']), ('é', ['e', '\u0301']),
   ('ö', ['o', '\u0308']), ('ü', ['u', '\u0308']), ('ç', ['c', '\u0327'])]

/-- Decomposition of one character. -/
def nfdChar (c : Char) : List Char :=
  ((nfdPairs.find? (fun p => p.1 == c)).map Prod.snd).getD [c]

/-- Model of the `\p{Diacritic}` regex class: the combining marks produced by
the decompositions above, plus the combining dot above. -/
def isDiacritic (c : Char) : Bool :=
  c = '\u0300' || c = '\u0301' || c = '\u0307' || c = '\u0308' || c = '\u0327'

/-- Model of `String.prototype.trim`. -/
def trimWs (s : Str) : Str :=
  ((s.dropWhile isWsChar).reverse.dropWhile isWsChar).reverse

/-- Model of `replace(/\s+/g, " ")`: every maximal whitespace run becomes one
space. -/
def collapseWs : Str → Str
  | [] => []
  | [c] => if isWsChar c then [' '] else [c]
  | a :: b :: rest =>
    if isWsChar a && isWsChar b then collapseWs (b :: rest)
    else (if isWsChar a then ' ' else a) :: collapseWs (b :: rest)

/-- The `normaliseText` helper of fuzzy.ts: NFD-decompose, strip diacritics,
lowercase, trim, collapse inner whitespace. -/
def normaliseText (s : Str) : Str :=
  collapseWs (trimWs (((s.flatMap nfdChar).filter (fun c => !isDiacritic c)).map jsToLower))

/-! ## Fuzzy matcher (fuzzy.ts) -/

/-- The `levenshtein` function of fuzzy.ts: the classic dynamic-programming
matrix, built row by row exactly as the two nested source loops do. -/
def levenshtein (a b : Str) : Nat :=
  if a = b then 0
  else if a.length = 0 then b.length
  else if b.length = 0 then a.length
  else
    let row0 : List Nat := List.range (b.length + 1)
    let rows := (List.range a.length).foldl
      (fun (rows : List (List Nat)) i =>
        let prev := (rows.getLast?).getD []
        let row := (List.range b.length).foldl
          (fun (row : List Nat) j =>
            let cost := if a.getD i ' ' = b.getD j ' ' then 0 else 1
            let del := prev.getD (j + 1) 0 + 1
            let ins := row.getD j 0 + 1
            let sub := prev.getD j 0 + cost
            row ++ [Nat.min del (Nat.min ins sub)])
          [i + 1]
        rows ++ [row])
      [row0]
    ((rows.getLast?).getD []).getD b.length 0

/-- The `similarity` function of fuzzy.ts.  JavaScript division on doubles is
modelled by exact rational division. -/
def similarity (a b : Str) : ℚ :=
  let na := normaliseText a
  let nb := normaliseText b
  if na.length = 0 && nb.length = 0 then 1
  else if na.length = 0 || nb.length = 0 then 0
  else 1 - (levenshtein na nb : ℚ) / (Nat.max na.length nb.length : ℚ)

structure Suggestion where
  value : Str
  score : ℚ
deriving DecidableEq

/-- Code-point lexicographic order on strings, the model taken for
`String.prototype.localeCompare`; the program only ever sorts lists whose
relative order no checked claim depends on. -/
def strLt : Str → Str → Bool
  | [], [] => false
  | [], _ :: _ => true
  | _ :: _, [] => false
  | a :: as, b :: bs => if a = b then strLt as bs else a < b

/-- Order used by the comparator of `suggest`: descending score, ties broken
by ascending value (`b.score - a.score || a.value.localeCompare(b.value)`). -/
def suggLE (x y : Suggestion) : Bool :=
  if x.score = y.score then !strLt y.value x.value else y.score < x.score

def insertSugg (x : Suggestion) : List Suggestion → List Suggestion
  | [] => [x]
  | y :: ys => if suggLE y x then y :: insertSugg x ys else x :: y :: ys

def sortSuggestions : List Suggestion → List Suggestion
  | [] => []
  | x :: xs => insertSugg x (sortSuggestions xs)

structure SuggestOpts where
  limit : Nat
  minScore : ℚ
deriving DecidableEq

/-- The `suggest` function of fuzzy.ts. -/
def suggest (query : Str) (values : List Str) (opts : SuggestOpts) : List Suggestion :=
  if values.length = 0 then []
  else if trimWs query = [] then (values.take opts.limit).map (fun v => ⟨v, 1⟩)
  else
    ((sortSuggestions
      ((values.map (fun v => Suggestion.mk v (similarity query v))).filter
        (fun e => opts.minScore ≤ e.score))).take opts.limit)

/-! ## Master data (master-data.ts plus the corpus helpers of utils.ts) -/

structure MasterRecord where
  name : Str
  aliases : List Str
  popularity : Option Nat
deriving DecidableEq

/-- An insertion-ordered map with string keys, the model for JavaScript `Map`
(`set` replaces in place when the key exists, appends otherwise). -/
abbrev Index := List (Str × MasterRecord)

def indexGet (m : Index) (k : Str) : Option MasterRecord :=
  (m.find? (fun p => p.1 == k)).map Prod.snd

def indexSet (m : Index) (k : Str) (v : MasterRecord) : Index :=
  if (m.find? (fun p => p.1 == k)).isSome then
    m.map (fun p => if p.1 == k then (k, v) else p)
  else m ++ [(k, v)]

structure MasterData where
  units : List MasterRecord
  ingredients : List MasterRecord
  unitIndex : Index
  ingredientIndex : Index
  unitValues : List Str
  ingredientValues : List Str
deriving DecidableEq

/-! ### Parenthetical scanning, shared by `extractNotes` and the corpus miner.
The regex `\(.*?\)` matches lazily from each `(` to the next `)` with no line
break in between; the global scan resumes after each match. -/

/-- Characters of `s` before its first `)`, or `none` when a line break or
the end of the string comes first (the regex dot does not match line
breaks). -/
def findClose : Str → Option Str
  | [] => none
  | c :: rest =>
    if c = ')' then some []
    else if c = '\n' || c = '\r' || c = '\u2028' || c = '\u2029' then none
    else match findClose rest with
      | some inner => some (c :: inner)
      | none => none

/-- One pass of the scanner: the text with every `\(.*?\)` match removed, and
the list of matches in order; after a match the scan resumes past its `)`.
The fuel argument (at least the length of the string) makes the recursion
structural; every step consumes at least one character. -/
def scanNotesGo : Nat → Str → Str × List Str
  | 0, _ => ([], [])
  | _, [] => ([], [])
  | fuel + 1, '(' :: rest =>
    match findClose rest with
    | some inner =>
      let t := scanNotesGo fuel (rest.drop (inner.length + 1))
      (t.1, ('(' :: (inner ++ [')'])) :: t.2)
    | none =>
      let t := scanNotesGo fuel rest
      ('(' :: t.1, t.2)
  | fuel + 1, c :: rest =>
    let t := scanNotesGo fuel rest
    (c :: t.1, t.2)

def scanNotes (s : Str) : Str × List Str := scanNotesGo s.length s

/-! ### Corpus helpers (utils.ts) -/

structure Cocktail where
  Cocktail : Str
  Rezeptur : Str
  Gruppe : Str
  Deko : Str
  Glas : Str
  Zubereitung : Str
deriving DecidableEq

/-- Model of `rezeptur.split(/\r?\n|,/)`: pieces between separators, where a
separator is `\r\n`, `\n` or `,` (a lone `\r` does not split). -/
def splitRezeptur : Str → List Str
  | [] => [[]]
  | '\r' :: '\n' :: rest => [] :: splitRezeptur rest
  | '\n' :: rest => [] :: splitRezeptur rest
  | ',' :: rest => [] :: splitRezeptur rest
  | c :: rest =>
    match splitRezeptur rest with
    | [] => [[c]]
    | p :: ps => (c :: p) :: ps

/-- The `ingredientsFromRezeptur` helper: split, trim, drop empties. -/
def ingredientsFromRezeptur (rezeptur : Str) : List Str :=
  ((splitRezeptur rezeptur).map trimWs).filter (fun p => !p.isEmpty)

/-- Model of `replace(/^\d+\s*[a-zA-Z%]+\s+/u, "")`: strip one leading
"amount plus unit word" group when present. -/
def stripAmountUnit (s : Str) : Str :=
  let ds := s.takeWhile isDigitChar
  if ds.isEmpty then s
  else
    let r1 := (s.drop ds.length).dropWhile isWsChar
    let letters := r1.takeWhile (fun c => c.isAlpha || c = '%')
    if letters.isEmpty then s
    else
      let r2 := r1.drop letters.length
      let ws2 := r2.takeWhile isWsChar
      if ws2.isEmpty then s else r2.drop ws2.length

/-- An insertion-ordered counting map, the model for the `Map<string, number>`
of `extractDynamicIngredients`. -/
abbrev CountMap := List (Str × Nat)

def countGet (m : CountMap) (k : Str) : Option Nat :=
  (m.find? (fun p => p.1 == k)).map Prod.snd

def countSet (m : CountMap) (k : Str) (v : Nat) : CountMap :=
  if (m.find? (fun p => p.1 == k)).isSome then
    m.map (fun p => if p.1 == k then (k, v) else p)
  else m ++ [(k, v)]

/-- The `extractDynamicIngredients` function of master-data.ts. -/
def extractDynamicIngredients (cocktails : List Cocktail) : List MasterRecord :=
  let counts := cocktails.foldl
    (fun counts ck =>
      ((((ingredientsFromRezeptur ck.Rezeptur).map
            (fun ing => trimWs (scanNotes ing).1)).filter
          (fun ing => decide (0 < ing.length))).foldl
        (fun counts ing =>
          let key := trimWs (stripAmountUnit ing)
          if key.isEmpty then counts
          else countSet counts key ((countGet counts key).getD 0 + 1))
        counts))
    ([] : CountMap)
  counts.map (fun p => MasterRecord.mk p.1 [] (some p.2))

/-- Shorthand for writing string literals as `Str`. -/
def str (s : String) : Str := s.toList

/-- The `BASE_UNITS` table of master-data.ts. -/
def BASE_UNITS : List MasterRecord :=
  [⟨str "cl", [str "zentiliter", str "centiliter", str "cL", str "cl."], none⟩,
   ⟨str "ml", [str "milliliter", str "millilitre", str "mL", str "ml."], none⟩,
   ⟨str "TL", [str "teelöffel", str "teeloeffel", str "teaspoon", str "tsp"], none⟩,
   ⟨str "EL", [str "esslöffel", str "essloeffel", str "tablespoon", str "tbsp"], none⟩,
   ⟨str "Dash", [str "dash", str "spritzer", str "dashs"], none⟩,
   ⟨str "Prise", [str "prise", str "pinch"], none⟩,
   ⟨str "Stück", [str "stück", str "stücke", str "piece", str "pieces", str "stk", str "stk."], none⟩,
   ⟨str "Scheibe", [str "scheibe", str "scheiben", str "slice", str "slices"], none⟩,
   ⟨str "handvoll", [str "handvoll", str "hand voll", str "handfull"], none⟩,
   ⟨str "Barlöffel", [str "barlöffel", str "bar loeffel", str "bar spoon", str "barspoon"], none⟩,
   ⟨str "Filler", [str "auffüllen", str "top up", str "fill", str "filler"], none⟩,
   ⟨str "%", [str "%", str "prozent", str "percent"], none⟩]

/-- The `BASE_INGREDIENTS` table of master-data.ts. -/
def BASE_INGREDIENTS : List MasterRecord :=
  [⟨str "Rum", [str "weisser rum", str "brauner rum"], none⟩,
   ⟨str "Bacardi", [], none⟩,
   ⟨str "Wodka", [str "vodka"], none⟩,
   ⟨str "Gin", [], none⟩,
   ⟨str "Tequila", [], none⟩,
   ⟨str "Triple Sec", [str "cointreau"], none⟩,
   ⟨str "Limettensaft", [str "limettensaft frisch", str "lime juice"], none⟩,
   ⟨str "Zitronensaft", [str "lemon juice", str "zitronensaft frisch"], none⟩,
   ⟨str "Zuckersirup", [str "zucker sirup", str "sirup"], none⟩,
   ⟨str "Angostura Bitters", [str "angostura", str "angostora"], none⟩,
   ⟨str "Maracuja", [str "passion fruit", str "maracuja nectar"], none⟩,
   ⟨str "Minze", [str "frische minze", str "mint"], none⟩,
   ⟨str "Eiswürfel", [str "eis", str "ice"], none⟩,
   ⟨str "Espresso", [], none⟩]

/-- The `buildIndex` function: every record is registered under its normalized
name and all its normalized aliases (`Map.set`, last writer wins). -/
def buildIndex (records : List MasterRecord) : Index :=
  records.foldl
    (fun m r =>
      r.aliases.foldl (fun m al => indexSet m (normaliseText al) r)
        (indexSet m (normaliseText r.name) r))
    []

/-- Order used to sort merged records (`a.name.localeCompare(b.name)`). -/
def recLE (x y : MasterRecord) : Bool := !strLt y.name x.name

def insertRec (x : MasterRecord) : List MasterRecord → List MasterRecord
  | [] => [x]
  | y :: ys => if recLE y x then y :: insertRec x ys else x :: y :: ys

def sortRecords : List MasterRecord → List MasterRecord
  | [] => []
  | x :: xs => insertRec x (sortRecords xs)

/-- First-occurrence deduplication, the model for `Array.from(new Set(...))`. -/
def dedupStr (l : List Str) : List Str :=
  l.foldl (fun acc x => if acc.contains x then acc else acc ++ [x]) []

/-- The `mergeRecords` function of master-data.ts. -/
def mergeRecords (base dyn : List MasterRecord) : List MasterRecord :=
  let m0 : Index := base.foldl (fun m r => indexSet m r.name r) []
  let m1 := dyn.foldl
    (fun m r =>
      match indexGet m r.name with
      | some ex =>
        indexSet m r.name
          { ex with
            aliases := dedupStr (ex.aliases ++ r.aliases)
            popularity := some (Nat.max (ex.popularity.getD 0) (r.popularity.getD 0)) }
      | none => indexSet m r.name r)
    m0
  sortRecords (m1.map Prod.snd)

/-- The corpus-independent body of `buildMasterData` (everything after the
cache check). -/
def buildMasterDataCore (cocktails : List Cocktail) : MasterData :=
  let dynamicIngredients := extractDynamicIngredients cocktails
  let ingredients := mergeRecords BASE_INGREDIENTS dynamicIngredients
  let units := mergeRecords BASE_UNITS []
  { units := units
    ingredients := ingredients
    unitIndex := buildIndex units
    ingredientIndex := buildIndex ingredients
    unitValues := units.map (fun u => u.name)
    ingredientValues := ingredients.map (fun i => i.name) }

/-- Minimal model of `JSON.stringify` on an array of strings (the corpus key
`JSON.stringify(cocktails.map(c => c.Cocktail))`). -/
def jsonEscapeChar (c : Char) : Str :=
  if c = '"' then ['\\', '"'] else if c = '\\' then ['\\', '\\'] else [c]

def jsonString (s : Str) : Str :=
  '"' :: (s.flatMap jsonEscapeChar) ++ ['"']

def joinComma : List Str → Str
  | [] => []
  | [x] => x
  | x :: xs => x ++ ',' :: joinComma xs

def jsonStringList (l : List Str) : Str :=
  '[' :: joinComma (l.map jsonString) ++ [']']

/-- The memo key of `buildMasterData`: the JSON encoding of the cocktail
names only. -/
def stableKey (cocktails : List Cocktail) : Str :=
  jsonStringList (cocktails.map (fun c => c.Cocktail))

/-- The module-level mutable cells `cachedKey` / `cachedData`, threaded as
explicit state. -/
structure MDCache where
  cachedKey : Str
  cachedData : Option MasterData
deriving DecidableEq

/-- The initial module state (`cachedKey = ""`, `cachedData = null`). -/
def initialCache : MDCache := ⟨[], none⟩

/-- The `buildMasterData` function of master-data.ts, with the module-level
cache threaded explicitly: returns the data and the new cache state. -/
def buildMasterData (st : MDCache) (cocktails : List Cocktail) : MasterData × MDCache :=
  let key := stableKey cocktails
  match st.cachedData with
  | some d =>
    if st.cachedKey = key then (d, st)
    else
      let master := buildMasterDataCore cocktails
      (master, ⟨key, some master⟩)
  | none =>
    let master := buildMasterDataCore cocktails
    (master, ⟨key, some master⟩)

/-! ### Resolution (master-data.ts) -/

inductive FieldStatus where
  | ok | fuzzy | new | missing
deriving DecidableEq

structure Resolution where
  name : Option Str
  status : FieldStatus
  suggestions : List Str
deriving DecidableEq

/-- Model of `raw.replace(/[.,]+$/g, "")`: strip one trailing run of dots and
commas. -/
def dropTrailingPunct (s : Str) : Str :=
  (s.reverse.dropWhile (fun c => c = '.' || c = ',')).reverse

/-- The `resolveUnit` function of master-data.ts. -/
def resolveUnit (raw : Str) (md : MasterData) : Resolution :=
  let cleaned := dropTrailingPunct raw
  if trimWs cleaned = [] then ⟨none, .missing, []⟩
  else
    match indexGet md.unitIndex (normaliseText cleaned) with
    | some record => ⟨some record.name, .ok, []⟩
    | none =>
      match suggest cleaned md.unitValues ⟨5, 7/10⟩ with
      | [] => ⟨none, .new, md.unitValues.take 5⟩
      | best :: others =>
        ⟨some best.value, if 85/100 ≤ best.score then .ok else .fuzzy,
          (best :: others).map (fun e => e.value)⟩

/-- The `resolveIngredient` function of master-data.ts. -/
def resolveIngredient (raw : Str) (md : MasterData) : Resolution :=
  let trimmed := trimWs raw
  if trimmed = [] then ⟨none, .missing, []⟩
  else
    match indexGet md.ingredientIndex (normaliseText trimmed) with
    | some record => ⟨some record.name, .ok, []⟩
    | none =>
      match suggest trimmed md.ingredientValues ⟨5, 6/10⟩ with
      | [] => ⟨none, .new, md.ingredientValues.take 5⟩
      | best :: others =>
        ⟨some best.value, if 8/10 ≤ best.score then .ok else .fuzzy,
          (best :: others).map (fun e => e.value)⟩

/-! ## Line parser (parser.ts) -/

inductive AmountStatus where
  | ok | empty | ambiguous | invalid
deriving DecidableEq

inductive TokType where
  | amount | unit | ingredient | notes
deriving DecidableEq

/-- A positional token.  The source field `end` is called `stop` here because
`end` is reserved in Lean. -/
structure IngredientToken where
  type : TokType
  start : Nat
  stop : Nat
  text : Str
deriving DecidableEq

structure Statuses where
  amount : AmountStatus
  unit : FieldStatus
  ingredient : FieldStatus
deriving DecidableEq

structure Suggestions where
  units : List Str
  ingredients : List Str
deriving DecidableEq

structure ParsedIngredient where
  raw : Str
  amount : Option ℚ
  amountText : Option Str
  unit : Option Str
  unitRaw : Option Str
  ingredient : Option Str
  ingredientRaw : Option Str
  notes : Option Str
  confidence : ℚ
  statuses : Statuses
  suggestions : Suggestions
  tokens : List IngredientToken
deriving DecidableEq

/-- A segment produced by the segmenter (`end` again renamed to `stop`). -/
structure IngredientSegment where
  text : Str
  start : Nat
  stop : Nat
deriving DecidableEq

/-- Numeric value of a digit string (`Number.parseFloat` on `\d+`). -/
def digitsToNat (ds : Str) : Nat :=
  ds.foldl (fun n c => n * 10 + (c.toNat - '0'.toNat)) 0

structure AmountParse where
  value : Option ℚ
  status : AmountStatus
  text : Str
deriving DecidableEq

/-- Full-string test for `^\d+\/\d+$`, returning numerator and denominator
digit strings. -/
def fractionParts (s : Str) : Option (Str × Str) :=
  let d1 := s.takeWhile isDigitChar
  match s.drop d1.length with
  | '/' :: r2 =>
    if !d1.isEmpty && !r2.isEmpty && r2.all isDigitChar then some (d1, r2) else none
  | _ => none

/-- Full-string test for `^\d+[.,]\d+$`, returning the integer and fractional
digit strings. -/
def decimalParts (s : Str) : Option (Str × Str) :=
  let d1 := s.takeWhile isDigitChar
  match s.drop d1.length with
  | sep :: r2 =>
    if (sep = '.' || sep = ',') && !d1.isEmpty && !r2.isEmpty && r2.all isDigitChar then
      some (d1, r2)
    else none
  | [] => none

/-- Exact value of a decimal literal (`Number.parseFloat` after the comma is
replaced by a dot). -/
def decimalVal (d1 d2 : Str) : ℚ :=
  (digitsToNat d1 : ℚ) + (digitsToNat d2 : ℚ) / ((10 : ℚ) ^ d2.length)

/-- Full-string test for `^\d+(?:\s*%?)$`, returning the digit prefix. -/
def intPercentCheck (s : Str) : Option Str :=
  let d1 := s.takeWhile isDigitChar
  if d1.isEmpty then none
  else
    match (s.drop d1.length).dropWhile isWsChar with
    | [] => some d1
    | ['%'] => some d1
    | _ => none

/-- Full-string test for `^\d+\s*-\s*\d+$`. -/
def isSpacedRange (s : Str) : Bool :=
  let d1 := s.takeWhile isDigitChar
  if d1.isEmpty then false
  else
    match (s.drop d1.length).dropWhile isWsChar with
    | '-' :: r2 =>
      let r3 := r2.dropWhile isWsChar
      !r3.isEmpty && r3.all isDigitChar
    | _ => false

/-- Full-string test for `^\d+-\d+$`. -/
def isTightRange (s : Str) : Bool :=
  let d1 := s.takeWhile isDigitChar
  if d1.isEmpty then false
  else
    match s.drop d1.length with
    | '-' :: r2 => !r2.isEmpty && r2.all isDigitChar
    | _ => false

/-- Full-string test for `^\d+$`. -/
def isDigits (s : Str) : Bool := !s.isEmpty && s.all isDigitChar

/-- The `parseAmount` function of parser.ts, branch for branch in source
order.  `Number.parseFloat` on the digit shapes below never yields `NaN`, so
the source's `isNaN` guards collapse to `ok`. -/
def parseAmount (token : Str) : AmountParse :=
  let trimmed := trimWs token
  if trimmed = [] then ⟨none, .empty, []⟩
  else if trimmed = ['-'] then ⟨none, .empty, ['-']⟩
  else if trimmed = ['½'] then ⟨some (1/2), .ok, trimmed⟩
  else if trimmed = ['¼'] then ⟨some (1/4), .ok, trimmed⟩
  else if trimmed = ['¾'] then ⟨some (3/4), .ok, trimmed⟩
  else
    match fractionParts trimmed with
    | some (a, b) =>
      if digitsToNat b = 0 then ⟨none, .invalid, trimmed⟩
      else ⟨some ((digitsToNat a : ℚ) / (digitsToNat b : ℚ)), .ok, trimmed⟩
    | none =>
      match decimalParts trimmed with
      | some (d1, d2) => ⟨some (decimalVal d1 d2), .ok, trimmed⟩
      | none =>
        match intPercentCheck trimmed with
        | some ds => ⟨some (digitsToNat ds : ℚ), .ok, trimmed⟩
        | none =>
          if isSpacedRange trimmed then
            ⟨none, .ambiguous, trimmed.filter (fun c => !isWsChar c)⟩
          else if isTightRange trimmed then ⟨none, .ambiguous, trimmed⟩
          else if isDigits trimmed then ⟨some (digitsToNat trimmed : ℚ), .ok, trimmed⟩
          else ⟨none, .invalid, trimmed⟩

/-- Two-decimal rounding (`Number.parseFloat(value.toFixed(2))`); the values
rounded here are never within 1/600 of a tie, so round-half-up on exact
rationals agrees with `toFixed` on doubles. -/
def round2 (q : ℚ) : ℚ := ((q * 100 + 1/2).floor : ℚ) / 100

/-- The `clampConfidence` function of parser.ts. -/
def clampConfidence (q : ℚ) : ℚ :=
  if q < 0 then 0 else if 1 < q then 1 else round2 q

def amountScore : AmountStatus → ℚ
  | .ok => 1 | .empty => 3/5 | .ambiguous => 2/5 | .invalid => 0

def unitScore : FieldStatus → ℚ
  | .ok => 1 | .fuzzy => 7/10 | .missing => 3/10 | .new => 1/5

def ingredientScore : FieldStatus → ℚ
  | .ok => 1 | .fuzzy => 7/10 | .missing => 0 | .new => 3/10

/-- The `computeConfidence` function of parser.ts. -/
def computeConfidence (st : Statuses) : ℚ :=
  clampConfidence ((amountScore st.amount + unitScore st.unit + ingredientScore st.ingredient) / 3)

/-- Model of `replace(/^(?:von|vom|mit|of)\s+/i, "")`. -/
def stripConnector (s : Str) : Str :=
  match [str "von", str "vom", str "mit", str "of"].find?
      (fun w =>
        (s.take w.length).map asciiLower == w &&
        (match s.drop w.length with
         | c :: _ => isWsChar c
         | [] => false)) with
  | some w => (s.drop w.length).dropWhile isWsChar
  | none => s

/-- The `extractNotes` function of parser.ts. -/
def joinSpace : List Str → Str
  | [] => []
  | [x] => x
  | x :: xs => x ++ ' ' :: joinSpace xs

def extractNotes (s : Str) : Str × Option Str :=
  let t := scanNotes s
  match t.2 with
  | [] => (trimWs s, none)
  | ms => (trimWs t.1, some (joinSpace ms))

/-- Model of `replace(/\s+,/g, ",")`: drop every whitespace run that
immediately precedes a comma.  The fuel argument (at least the length of the
string) makes the recursion structural; every step consumes at least one
character. -/
def squashWsCommaGo : Nat → Str → Str
  | 0, _ => []
  | _, [] => []
  | fuel + 1, c :: rest =>
    if isWsChar c then
      let run := List.takeWhile isWsChar (c :: rest)
      let after := List.drop run.length (c :: rest)
      if after.head? = some ',' then squashWsCommaGo fuel after
      else run ++ squashWsCommaGo fuel after
    else c :: squashWsCommaGo fuel rest

def squashWsComma (s : Str) : Str := squashWsCommaGo s.length s

/-- The `cleanupIngredientRaw` function of parser.ts. -/
def cleanupIngredientRaw (s : Str) : Str :=
  trimWs (((squashWsComma s).reverse.dropWhile (fun c => c = ',')).reverse)

/-- The `isDecimalComma` function of parser.ts. -/
def isDecimalComma (s : Str) (i : Nat) : Bool :=
  match i with
  | 0 => false
  | Nat.succ j =>
    match s.get? j, s.get? (j + 2) with
    | some p, some n => isDigitChar p && isDigitChar n && n ≠ ' '
    | _, _ => false

/-- Model of `skipWhitespace`. -/
def skipWs (s : Str) (pos : Nat) : Nat :=
  pos + ((s.drop pos).takeWhile isWsChar).length

/-- One scan step of the segmenter's parenthesis-depth update: `(` counts up,
`)` counts down but never below zero. -/
def dstep (d : Nat) (c : Char) : Nat :=
  if c = '(' then d + 1 else if c = ')' && 0 < d then d - 1 else d

/-- `raw.slice(a, b)` for `0 ≤ a ≤ b`. -/
def sliceStr (s : Str) (a b : Nat) : Str := (s.drop a).take (b - a)

/-- The `pushSegment` closure of `splitIngredientTuples`: trim the region and
drop it when nothing remains. -/
def pushSegment (value : Str) (rawStart rawEnd : Nat) : Option IngredientSegment :=
  let mid := sliceStr value rawStart rawEnd
  let lead := mid.takeWhile isWsChar
  let core := mid.dropWhile isWsChar
  let trail := core.reverse.takeWhile isWsChar
  if core.isEmpty then none
  else some ⟨(core.reverse.dropWhile isWsChar).reverse,
             rawStart + lead.length, rawEnd - trail.length⟩

/-- The scan loop of `splitIngredientTuples`; `fuel` counts the remaining loop
iterations (`value.length + 1 - index`, one virtual end-of-string step
included). -/
def segLoop (value : Str) : Nat → Nat → Option Nat → Nat → List IngredientSegment
  | 0, _, _, _ => []
  | fuel + 1, i, start, depth =>
    let c := (value.get? i).getD '\n'
    let isLB := c = '\n' || c = '\r' || i = value.length
    let isComma := c = ','
    let depth1 := dstep depth c
    match start with
    | none =>
      if !isLB && (!isComma || isDecimalComma value i) && !isWsChar c then
        segLoop value fuel (i + 1) (some i) depth1
      else
        segLoop value fuel (i + 1) none depth1
    | some s =>
      if isLB || (isComma && !isDecimalComma value i && depth1 = 0) then
        match pushSegment value s i with
        | some seg => seg :: segLoop value fuel (i + 1) none 0
        | none => segLoop value fuel (i + 1) none 0
      else
        segLoop value fuel (i + 1) (some s) depth1

/-- The `splitIngredientTuples` function of parser.ts. -/
def splitIngredientTuples (value : Str) : List IngredientSegment :=
  segLoop value (value.length + 1) 0 none 0

/-! ### Anchored regex matchers of the line parser -/

/-- `raw.slice(pos).match(/^(\d{1,3})\s*%/)`: the digit group and the total
match length.  A digit run longer than three cannot match (backtracking a
greedy `\d{1,3}` still leaves a digit where `\s*%` must start). -/
def percentMatchAt (s : Str) (pos : Nat) : Option (Str × Nat) :=
  let tail := s.drop pos
  let ds := tail.takeWhile isDigitChar
  if ds.isEmpty || decide (3 < ds.length) then none
  else
    let wsRun := (tail.drop ds.length).takeWhile isWsChar
    match tail.get? (ds.length + wsRun.length) with
    | some c => if c = '%' then some (ds, ds.length + wsRun.length + 1) else none
    | none => none

/-- `raw.slice(pos).match(/^filler\b/i)`: the match length when present. -/
def fillerMatchAt (s : Str) (pos : Nat) : Option Nat :=
  let tail := s.drop pos
  if (tail.take 6).map asciiLower = str "filler" then
    match tail.get? 6 with
    | some c => if isWordChar c then none else some 6
    | none => some 6
  else none

/-- The ordered alternation
`/^(?:\d+\s*-\s*\d+|\d+-\d+|\d+[.,]?\d*|\d+\/\d+|[½¼¾]|-)/`; the first
alternative that matches wins.  With a leading digit run the third
alternative always matches, so the fraction alternative can never fire. -/
def amountMatchAt (s : Str) (pos : Nat) : Option Str :=
  let tail := s.drop pos
  let d1 := tail.takeWhile isDigitChar
  let alt1 : Option Str :=
    if d1.isEmpty then none
    else
      let r1 := tail.drop d1.length
      let w1 := r1.takeWhile isWsChar
      match r1.drop w1.length with
      | '-' :: r2 =>
        let w2 := r2.takeWhile isWsChar
        let d2 := (r2.drop w2.length).takeWhile isDigitChar
        if d2.isEmpty then none
        else some (d1 ++ w1 ++ '-' :: (w2 ++ d2))
      | _ => none
  match alt1 with
  | some m => some m
  | none =>
    let alt2 : Option Str :=
      if d1.isEmpty then none
      else
        match tail.drop d1.length with
        | '-' :: r2 =>
          let d2 := r2.takeWhile isDigitChar
          if d2.isEmpty then none else some (d1 ++ '-' :: d2)
        | _ => none
    match alt2 with
    | some m => some m
    | none =>
      if !d1.isEmpty then
        match tail.drop d1.length with
        | c :: r2 =>
          if c = '.' || c = ',' then some (d1 ++ c :: r2.takeWhile isDigitChar)
          else some d1
        | [] => some d1
      else
        match tail with
        | c :: _ =>
          if c = '½' || c = '¼' || c = '¾' then some [c]
          else if c = '-' then some ['-']
          else none
        | [] => none

/-- `raw.indexOf(needle, from)` as an option. -/
def indexOfFrom (hay needle : Str) (start : Nat) : Option Nat :=
  (List.range (hay.length + 1)).find?
    (fun i => decide (start ≤ i) && needle.isPrefixOf (hay.drop i))

/-- The `UNIT_BOUNDARY` word class `[^\s,()]+`. -/
def isUnitBoundaryChar (c : Char) : Bool :=
  !(isWsChar c || c = ',' || c = '(' || c = ')')

/-- `consumePattern` with `UNIT_BOUNDARY`: the word and the cursor after it. -/
def consumeWord (s : Str) (pos : Nat) : Option (Str × Nat) :=
  let w := (s.drop pos).takeWhile isUnitBoundaryChar
  if w.isEmpty then none else some (w, pos + w.length)

/-- Result record of `findUnitCandidate` (`end` renamed to `stop`). -/
structure UnitCandidate where
  text : Option Str
  stop : Nat
  status : FieldStatus
  resolved : Option Str
  suggestions : List Str
deriving DecidableEq

/-- The `findUnitCandidate` function of parser.ts. -/
def findUnitCandidate (input : Str) (pos : Nat) (md : MasterData) : UnitCandidate :=
  let currentPos := skipWs input pos
  match consumeWord input currentPos with
  | none => ⟨none, currentPos, .missing, none, []⟩
  | some (firstWord, next1) =>
    let firstResolved := resolveUnit firstWord md
    match firstResolved.name with
    | some n => ⟨some firstWord, next1, firstResolved.status, some n, firstResolved.suggestions⟩
    | none =>
      let combined : Option UnitCandidate :=
        match consumeWord input (skipWs input next1) with
        | some (secondWord, next2) =>
          let combinedResolved := resolveUnit (firstWord ++ ' ' :: secondWord) md
          match combinedResolved.name with
          | some cn =>
            some ⟨some (firstWord ++ ' ' :: secondWord), next2, combinedResolved.status,
                  some cn, combinedResolved.suggestions⟩
          | none => none
        | none => none
      match combined with
      | some r => r
      | none =>
        let fallback := resolveUnit firstWord md
        ⟨some firstWord, next1, fallback.status, fallback.name, fallback.suggestions⟩

/-! ### `parseIngredientLine` (parser.ts lines 257-456) -/

/-- Assembly of the final record; both non-trivial return statements of the
source compute `confidence: computeConfidence(statuses)` this way. -/
def mkParsed (raw : Str) (amount : Option ℚ) (amountText unit unitRaw ingredient
    ingredientRaw notes : Option Str) (st : Statuses) (sugg : Suggestions)
    (tokens : List IngredientToken) : ParsedIngredient :=
  ⟨raw, amount, amountText, unit, unitRaw, ingredient, ingredientRaw, notes,
    computeConfidence st, st, sugg, tokens⟩

/-- The early return for blank input (parser.ts lines 266-288). -/
def emptyResult (raw : Str) : ParsedIngredient :=
  ⟨raw, none, none, none, none, none, none, none, 0,
    ⟨.empty, .missing, .missing⟩, ⟨[], []⟩, []⟩

/-- Running amount state of the parser (`amount`, `amountText`,
`amountStatus`). -/
structure AmState where
  amount : Option ℚ
  amountText : Option Str
  status : AmountStatus
deriving DecidableEq

/-! ### Lines 404-456 of parser.ts: the ingredient-and-notes stage.
The source's local constants (`rest`, `cleaned`, `connectorStripped`,
`ingredientText`, `notes`, the resolved fields and the token pushes) are
named top-level functions here so that proofs can speak about each piece;
being pure, recomputation and sharing agree. -/

/-- `ingredientText` of the generic path: the remainder at `pos5`, cleaned,
connector-stripped, with parenthetical notes removed. -/
def ingText (raw : Str) (pos5 : Nat) : Str :=
  (extractNotes (stripConnector (cleanupIngredientRaw (raw.drop pos5)))).1

/-- `notes` of the generic path. -/
def ingNotes (raw : Str) (pos5 : Nat) : Option Str :=
  (extractNotes (stripConnector (cleanupIngredientRaw (raw.drop pos5)))).2

/-- The ingredient resolution of the generic path. -/
def ingRes (raw : Str) (md : MasterData) (pos5 : Nat) : Resolution :=
  resolveIngredient (ingText raw pos5) md

/-- Whether ingredient text is present (`if (ingredientText)`). -/
def hasIngB (raw : Str) (pos5 : Nat) : Bool := !(ingText raw pos5).isEmpty

def ingStatus (raw : Str) (md : MasterData) (pos5 : Nat) : FieldStatus :=
  if hasIngB raw pos5 then (ingRes raw md pos5).status else .missing

def ingSuggs (raw : Str) (md : MasterData) (pos5 : Nat) : List Str :=
  if hasIngB raw pos5 then (ingRes raw md pos5).suggestions else []

/-- The ingredient value before the filler fallback
(`resolved.name ?? ingredientText`). -/
def ingBase (raw : Str) (md : MasterData) (pos5 : Nat) : Option Str :=
  if hasIngB raw pos5 then
    some (match (ingRes raw md pos5).name with
      | some n => n
      | none => ingText raw pos5)
  else none

/-- The test `unit && unit.toLowerCase() === "filler"`. -/
def isFillerUnitB (unit : Option Str) : Bool :=
  match unit with
  | some u => u.map jsToLower == str "filler"
  | none => false

/-- The final ingredient value, including the filler fallback of line 429
(`!ingredient` is JavaScript falsiness: null or the empty string). -/
def ingFinal (raw : Str) (md : MasterData) (pos5 : Nat) (unit : Option Str) : Option Str :=
  if isFillerUnitB unit &&
      (ingBase raw md pos5 == (none : Option Str) || ingBase raw md pos5 == some ([] : Str)) then
    some (ingText raw pos5)
  else ingBase raw md pos5

/-- The ingredient and notes tokens appended by the generic path. -/
def ingToks (raw : Str) (toks2 : List IngredientToken) (pos5 : Nat) : List IngredientToken :=
  let toks3 :=
    if hasIngB raw pos5 then
      toks2 ++ [⟨.ingredient, pos5, pos5 + (ingText raw pos5).length, ingText raw pos5⟩]
    else toks2
  match ingNotes raw pos5 with
  | some ns =>
    match indexOfFrom raw ns pos5 with
    | some ni => toks3 ++ [⟨.notes, ni, ni + ns.length, ns⟩]
    | none => toks3
  | none => toks3

/-- The ingredient stage plus final assembly of the generic path. -/
def ingTail (raw : Str) (md : MasterData) (toks2 : List IngredientToken) (pos5 : Nat)
    (am1 : AmState) (unit unitRaw : Option Str) (unitStatus : FieldStatus)
    (unitSuggestions : List Str) : ParsedIngredient :=
  mkParsed raw (if am1.status = .ok then am1.amount else none) am1.amountText
    unit unitRaw (ingFinal raw md pos5 unit) (some (ingText raw pos5)) (ingNotes raw pos5)
    ⟨am1.status, unitStatus, ingStatus raw md pos5⟩
    ⟨unitSuggestions, ingSuggs raw md pos5⟩ (ingToks raw toks2 pos5)

/-- Lines 391-402 of parser.ts: the unit stage, entered at an already
whitespace-skipped cursor `pos3`, feeding `ingTail`. -/
def unitIngTail (raw : Str) (md : MasterData) (toks1 : List IngredientToken)
    (pos3 : Nat) (am1 : AmState) : ParsedIngredient :=
  let uc := findUnitCandidate raw pos3 md
  let hasUnit := uc.text.isSome
  let unit : Option Str :=
    match uc.text with
    | some t =>
      some (match uc.resolved with
        | some n => n
        | none => if normaliseText t = [] then t else normaliseText t)
    | none => none
  let unitRaw : Option Str := if hasUnit then some (sliceStr raw pos3 uc.stop) else none
  let unitStatus : FieldStatus := if hasUnit then uc.status else .missing
  let unitSuggestions : List Str := if hasUnit then uc.suggestions else []
  let toks2 := if hasUnit then toks1 ++ [⟨.unit, pos3, uc.stop, sliceStr raw pos3 uc.stop⟩] else toks1
  ingTail raw md toks2 (skipWs raw (if hasUnit then uc.stop else pos3)) am1
    unit unitRaw unitStatus unitSuggestions

/-- Lines 376-389 of parser.ts: the generic amount stage, feeding
`unitIngTail`.  Entered with the tokens, cursor and amount state left by the
optional percent prefix. -/
def genericTail (raw : Str) (md : MasterData) (toks0 : List IngredientToken)
    (pos0 : Nat) (am0 : AmState) : ParsedIngredient :=
  let pos1 := skipWs raw pos0
  let step1 : AmState × List IngredientToken × Nat :=
    match amountMatchAt raw pos1 with
    | some matched =>
      let r := parseAmount matched
      (⟨r.value, some r.text, r.status⟩,
       toks0 ++ [⟨.amount, pos1, pos1 + matched.length, sliceStr raw pos1 (pos1 + matched.length)⟩],
       skipWs raw (pos1 + matched.length))
    | none => (am0, toks0, pos1)
  unitIngTail raw md step1.2.1 (skipWs raw step1.2.2) step1.1

/-! ### Lines 314-373 of parser.ts: the percent-filler fast path, in the same
named-pieces style.  Its ingredient remainder is trimmed but not
comma-cleaned, and there is no filler fallback. -/

/-- The ingredient text of the filler path (`rest` trimmed,
connector-stripped, notes removed). -/
def fIngText (raw : Str) (pos : Nat) : Str :=
  (extractNotes (stripConnector (trimWs (raw.drop pos)))).1

def fIngNotes (raw : Str) (pos : Nat) : Option Str :=
  (extractNotes (stripConnector (trimWs (raw.drop pos)))).2

def fIngRes (raw : Str) (md : MasterData) (pos : Nat) : Resolution :=
  resolveIngredient (fIngText raw pos) md

def fHasIng (raw : Str) (pos : Nat) : Bool := !(fIngText raw pos).isEmpty

def fIngStatus (raw : Str) (md : MasterData) (pos : Nat) : FieldStatus :=
  if fHasIng raw pos then (fIngRes raw md pos).status else .missing

def fIngSuggs (raw : Str) (md : MasterData) (pos : Nat) : List Str :=
  if fHasIng raw pos then (fIngRes raw md pos).suggestions else []

def fIngredient (raw : Str) (md : MasterData) (pos : Nat) : Option Str :=
  if fHasIng raw pos then
    some (match (fIngRes raw md pos).name with
      | some n => n
      | none => fIngText raw pos)
  else none

/-- The token list of the filler path: amount and unit tokens, then the
ingredient token when text is present, then the notes token when the notes
string occurs in `raw` at or after the ingredient end. -/
def fToks (raw : Str) (md : MasterData) (amountTok : IngredientToken)
    (unitStart pos : Nat) : List IngredientToken :=
  let unitEnd := unitStart + 6
  let fillerText := sliceStr raw unitStart unitEnd
  let text := fIngText raw pos
  let toks2 :=
    if fHasIng raw pos then
      [amountTok, ⟨.unit, unitStart, unitEnd, fillerText⟩,
       ⟨.ingredient, pos, pos + text.length, text⟩]
    else [amountTok, ⟨.unit, unitStart, unitEnd, fillerText⟩]
  match fIngNotes raw pos with
  | some ns =>
    match indexOfFrom raw ns (pos + text.length) with
    | some ni => toks2 ++ [⟨.notes, ni, ni + ns.length, ns⟩]
    | none => toks2
  | none => toks2

/-- The percent-filler fast path, entered when a percent amount was consumed
and the next word is `filler`. -/
def fillerTail (raw : Str) (md : MasterData) (amountTok : IngredientToken)
    (amount : ℚ) (amountText : Str) (unitStart : Nat) : ParsedIngredient :=
  mkParsed raw (some amount) (some amountText) (some (str "Filler"))
    (some (sliceStr raw unitStart (unitStart + 6)))
    (fIngredient raw md (skipWs raw (unitStart + 6)))
    (some (fIngText raw (skipWs raw (unitStart + 6))))
    (fIngNotes raw (skipWs raw (unitStart + 6)))
    ⟨.ok, .ok, fIngStatus raw md (skipWs raw (unitStart + 6))⟩
    ⟨[], fIngSuggs raw md (skipWs raw (unitStart + 6))⟩
    (fToks raw md amountTok unitStart (skipWs raw (unitStart + 6)))

/-- The `parseIngredientLine` function of parser.ts.  The percent digit group
has one to three digits, so its `parseFloat` is never `NaN` and the
`invalid` arm of line 308 collapses to `ok`; likewise the final
`Number.isNaN(amount)` guard of the filler return collapses. -/
def parseIngredientLine (line : Str) (md : MasterData) : ParsedIngredient :=
  let raw := line
  let pos := skipWs raw 0
  if trimWs (raw.drop pos) = [] then emptyResult raw
  else
    match percentMatchAt raw pos with
    | some (ds, mlen) =>
      let amount : ℚ := (digitsToNat ds : ℚ)
      let amountText : Str := ds ++ ['%']
      let tokEnd := pos + mlen
      let tok : IngredientToken := ⟨.amount, pos, tokEnd, sliceStr raw pos tokEnd⟩
      let pos2 := skipWs raw tokEnd
      match fillerMatchAt raw pos2 with
      | some _ => fillerTail raw md tok amount amountText pos2
      | none => genericTail raw md [tok] pos2 ⟨some amount, some amountText, .ok⟩
    | none => genericTail raw md [] pos ⟨none, none, .empty⟩

/-! ## Concrete fixtures -/

/-- Master data with an empty vocabulary, a legitimate `MasterData` value used
as a concrete input in several theorems (the claims quantify over all
master data). -/
def mdEmpty : MasterData := ⟨[], [], [], [], [], []⟩

/-- A small concrete master data with one unit and one ingredient. -/
def mdSmall : MasterData :=
  let units : List MasterRecord := [⟨str "cl", [str "zentiliter"], none⟩]
  let ings : List MasterRecord := [⟨str "Gin", [], none⟩]
  ⟨units, ings, buildIndex units, buildIndex ings,
    units.map (fun u => u.name), ings.map (fun i => i.name)⟩

/-! ## Claim-side predicates -/

/-- Two token spans do not overlap (half-open intervals). -/
def spansDisjoint (a b : IngredientToken) : Prop :=
  a.stop ≤ b.start ∨ b.stop ≤ a.start

instance (a b : IngredientToken) : Decidable (spansDisjoint a b) := by
  unfold spansDisjoint; infer_instance

/-- The token-span invariant stated by the claim: sorted by `start`, pairwise
non-overlapping, and every span inside `[0, raw.length]` with
`start < stop`. -/
def tokenSpanInvariant (raw : Str) (ts : List IngredientToken) : Prop :=
  ts.Pairwise (fun a b => a.start ≤ b.start) ∧
  ts.Pairwise spansDisjoint ∧
  ∀ t ∈ ts, t.start < t.stop ∧ t.stop ≤ raw.length

instance (raw : Str) (ts : List IngredientToken) : Decidable (tokenSpanInvariant raw ts) := by
  unfold tokenSpanInvariant; infer_instance

/-- Spec-side scoring table for the amount status, written from the words of
the specification (`ok` = 1, `empty` = 0.6, `ambiguous` = 0.4,
`invalid` = 0). -/
def specAmountScore : AmountStatus → ℚ
  | .ok => 1 | .empty => 6/10 | .ambiguous => 4/10 | .invalid => 0

/-- Spec-side scoring table for the unit status (`ok` = 1, `fuzzy` = 0.7,
`missing` = 0.3, `new` = 0.2). -/
def specUnitScore : FieldStatus → ℚ
  | .ok => 1 | .fuzzy => 7/10 | .missing => 3/10 | .new => 2/10

/-- Spec-side scoring table for the ingredient status (`ok` = 1,
`fuzzy` = 0.7, `missing` = 0, `new` = 0.3). -/
def specIngredientScore : FieldStatus → ℚ
  | .ok => 1 | .fuzzy => 7/10 | .missing => 0 | .new => 3/10

/-- Spec-side confidence: the mean of the three per-field scores, rounded to
two decimals and clamped to `[0, 1]`, written from the words of the
specification. -/
def specConfidence (st : Statuses) : ℚ :=
  let mean := (specAmountScore st.amount + specUnitScore st.unit +
    specIngredientScore st.ingredient) / 3
  let rounded := ((mean * 100 + 1/2).floor : ℚ) / 100
  if rounded < 0 then 0 else if 1 < rounded then 1 else rounded

/-- Parenthesis depth of `value` over the half-open range `[s, i)`, counting
`(` up and `)` down clamped at zero, exactly as the segmenter's scan does. -/
def depthFrom (value : Str) (s i : Nat) : Nat :=
  (sliceStr value s i).foldl dstep 0

/-- The boundary invariant over one region of the input: the region holds no
line break, and every comma inside it is a decimal comma or sits at positive
parenthesis depth. -/
def segRegionOk (value : Str) (s e : Nat) : Prop :=
  ∀ j, s ≤ j → j < e →
    (value.get? j ≠ some '\n' ∧ value.get? j ≠ some '\r') ∧
    (value.get? j = some ',' →
      isDecimalComma value j = true ∨ 0 < depthFrom value s j)

/-- Corpus with one recipe named `"A"` using Gin. -/
def corpusGin : List Cocktail := [⟨str "A", str "2 cl Gin", [], [], [], []⟩]

/-- The same single recipe name, but the ingredient text now names
Kirschsaft. -/
def corpusKirsch : List Cocktail := [⟨str "A", str "3 cl Kirschsaft", [], [], [], []⟩]

/-- A character is stable when the three character-level passes of
`normaliseText` leave it unchanged. -/
def charStable (c : Char) : Prop :=
  nfdChar c = [c] ∧ isDiacritic c = false ∧ jsToLower c = c

/-- Whitespace-canonical form: all whitespace is a plain space, and no two
adjacent characters are both whitespace. -/
def wsCanon (x : Str) : Prop :=
  (∀ c ∈ x, isWsChar c = true → c = ' ') ∧
  List.Chain' (fun a b => ¬(isWsChar a = true ∧ isWsChar b = true)) x

end CocktailSite

namespace CocktailSite

/-! ## Theorems -/

/-- Claim C2 (code bug evaluation): on the line `"(dry) Gin"` the parser
emits an ingredient token spanning `[0, 3)` and a notes token spanning
`[0, 5)`; the two overlap, so the token-span invariant stated by the claim
fails on this parse. -/
theorem tokens_overlap_on_leading_note :
    (parseIngredientLine (str "(dry) Gin") mdEmpty).tokens =
      [⟨.ingredient, 0, 3, str "Gin"⟩, ⟨.notes, 0, 5, str "(dry)"⟩] ∧
    ¬ tokenSpanInvariant (parseIngredientLine (str "(dry) Gin") mdEmpty).raw
        (parseIngredientLine (str "(dry) Gin") mdEmpty).tokens := by
  constructor
  · decide
  · decide

end CocktailSite

namespace CocktailSite

/-- Claim C3 (counterexample): the blank line returns the literal confidence 0
of the early-return path, while the line `"-"` reaches the generic path and
gets `computeConfidence` of the very same statuses `(empty, missing,
missing)`, namely 0.3 — so confidence is not a function of the statuses, and
on the blank line it differs from the rounded mean of the three scores. -/
theorem confidence_not_determined_by_statuses :
    (parseIngredientLine (str "") mdEmpty).statuses =
      (parseIngredientLine (str "-") mdEmpty).statuses ∧
    (parseIngredientLine (str "") mdEmpty).confidence ≠
      (parseIngredientLine (str "-") mdEmpty).confidence ∧
    (parseIngredientLine (str "") mdEmpty).confidence ≠
      computeConfidence (parseIngredientLine (str "") mdEmpty).statuses := by
  refine ⟨by decide, by with_unfolding_all decide, by with_unfolding_all decide⟩

/-- Claim C4 (counterexample): on the line `"."` the unit word `"."` cleans to
the empty string inside `resolveUnit`, so the unit status is `missing`, yet
the parser still stores the non-null unit `"."`. -/
theorem unit_nonnull_with_missing_status :
    (parseIngredientLine (str ".") mdEmpty).statuses.unit = FieldStatus.missing ∧
    (parseIngredientLine (str ".") mdEmpty).unit = some (str ".") := by
  refine ⟨by decide, by decide⟩

/-- Claim C5 (code bug evaluation): the amount regex alternation tries
`\d+[.,]?\d*` before `\d+\/\d+`, so on a line starting with the simple
fraction `1/2` only the digit `1` is consumed (amount 1, text `"1"`,
status `ok`), even though `parseAmount` itself evaluates the full fraction
`"1/2"` to one half — the fraction alternative is unreachable. -/
theorem fraction_not_consumed_by_amount_stage :
    amountMatchAt (str "1/2") 0 = some (str "1") ∧
    (parseIngredientLine (str "1/2") mdEmpty).amount = some 1 ∧
    (parseIngredientLine (str "1/2") mdEmpty).amountText = some (str "1") ∧
    (parseIngredientLine (str "1/2") mdEmpty).statuses.amount = AmountStatus.ok ∧
    (parseAmount (str "1/2")).value = some (1/2 : ℚ) ∧
    (parseAmount (str "1/0")).status = AmountStatus.invalid := by
  refine ⟨by decide, by with_unfolding_all decide, by decide, by decide,
    by with_unfolding_all decide, by decide⟩

end CocktailSite

namespace CocktailSite

set_option maxRecDepth 10000 in
/-- Claim C8 (code bug evaluation): the memo key of `buildMasterData` is
computed from the cocktail names only, so after building for `corpusGin`,
a call with `corpusKirsch` (same name, different ingredient text) returns
the cached snapshot unchanged: the mined ingredient `"Kirschsaft"` is
missing from it, although a fresh build of the same corpus contains it. -/
theorem buildMasterData_serves_stale_cache :
    (buildMasterData (buildMasterData initialCache corpusGin).2 corpusKirsch).1 =
      (buildMasterData initialCache corpusGin).1 ∧
    (str "Kirschsaft") ∈ (buildMasterData initialCache corpusKirsch).1.ingredientValues ∧
    (str "Kirschsaft") ∉
      (buildMasterData (buildMasterData initialCache corpusGin).2 corpusKirsch).1.ingredientValues := by
  refine ⟨by with_unfolding_all decide, by with_unfolding_all decide,
    by with_unfolding_all decide⟩

end CocktailSite

namespace CocktailSite

/-! ## Generic list lemmas about the scanning primitives -/

theorem dw_idem (p : Char → Bool) (l : Str) :
    (l.dropWhile p).dropWhile p = l.dropWhile p := by
  induction l with
  | nil => simp
  | cons a t ih =>
    by_cases h : p a
    · simp [List.dropWhile_cons, h, ih]
    · simp [List.dropWhile_cons, h]

theorem dropWhile_self_head (p : Char → Bool) (l : Str) (h : l.dropWhile p = l) :
    l = [] ∨ ∃ c t, l = c :: t ∧ p c = false := by
  cases l with
  | nil => exact Or.inl rfl
  | cons c t =>
    rw [List.dropWhile_cons] at h
    by_cases hc : p c
    · rw [if_pos hc] at h
      have h1 := congrArg List.length h
      have h2 := (List.dropWhile_suffix (l := t) p).length_le
      simp at h1
      omega
    · exact Or.inr ⟨c, t, rfl, by simpa using hc⟩

theorem trimWs_idem (s : Str) : trimWs (trimWs s) = trimWs s := by
  unfold trimWs
  set a := s.dropWhile isWsChar with ha
  set b := (a.reverse.dropWhile isWsChar).reverse with hb
  have hpre : b <+: a := by
    rw [hb, ← List.reverse_suffix]
    simpa using List.dropWhile_suffix (l := a.reverse) isWsChar
  have hib : b.dropWhile isWsChar = b := by
    rcases dropWhile_self_head isWsChar a (by rw [ha]; exact dw_idem _ _) with h0 | hcons
    · rw [h0] at hpre
      rw [List.prefix_nil.mp hpre]
      simp
    · obtain ⟨c, t, heq, hc⟩ := hcons
      cases hx : b with
      | nil => simp
      | cons d ds =>
        rw [hx, heq] at hpre
        have hd : d = c := (List.cons_prefix_cons.mp hpre).1
        rw [List.dropWhile_cons, hd, hc]
        simp
  calc ((b.dropWhile isWsChar).reverse.dropWhile isWsChar).reverse
      = (b.reverse.dropWhile isWsChar).reverse := by rw [hib]
    _ = ((a.reverse.dropWhile isWsChar).dropWhile isWsChar).reverse := by
        rw [hb]; simp only [List.reverse_reverse]
    _ = (a.reverse.dropWhile isWsChar).reverse := by rw [dw_idem]
    _ = b := hb.symm

theorem drop_length_takeWhile (p : Char → Bool) (l : Str) :
    l.drop (l.takeWhile p).length = l.dropWhile p := by
  induction l with
  | nil => simp
  | cons a t ih =>
    by_cases h : p a
    · simp [List.takeWhile_cons, List.dropWhile_cons, h, ih]
    · simp [List.takeWhile_cons, List.dropWhile_cons, h]

theorem takeWhile_dropWhile_nil (p : Char → Bool) (l : Str) :
    (l.dropWhile p).takeWhile p = [] := by
  induction l with
  | nil => simp
  | cons a t ih =>
    by_cases h : p a
    · simp [List.dropWhile_cons, h, ih]
    · simp [List.dropWhile_cons, List.takeWhile_cons, h]

theorem take_length_takeWhile (p : Char → Bool) (l : Str) :
    l.take (l.takeWhile p).length = l.takeWhile p := by
  induction l with
  | nil => simp
  | cons a t ih =>
    by_cases h : p a
    · simp [List.takeWhile_cons, h, ih]
    · simp [List.takeWhile_cons, h]

theorem skipWs_idem (s : Str) (p : Nat) : skipWs s (skipWs s p) = skipWs s p := by
  unfold skipWs
  have h1 : s.drop (p + ((s.drop p).takeWhile isWsChar).length) =
      (s.drop p).dropWhile isWsChar := by
    rw [← List.drop_drop]
    · exact drop_length_takeWhile isWsChar (s.drop p)
  rw [h1, takeWhile_dropWhile_nil]
  simp

theorem drop_skipWs_zero (s : Str) : s.drop (skipWs s 0) = s.dropWhile isWsChar := by
  have : skipWs s 0 = (s.takeWhile isWsChar).length := by simp [skipWs]
  rw [this, drop_length_takeWhile]

theorem trimWs_dropWhile (s : Str) :
    trimWs (s.dropWhile isWsChar) = trimWs s := by
  unfold trimWs
  rw [dw_idem]

/-! ## Projection lemmas for the parser tails -/

theorem unitIngTail_raw (raw : Str) (md : MasterData) (toks1 : List IngredientToken)
    (pos3 : Nat) (am1 : AmState) : (unitIngTail raw md toks1 pos3 am1).raw = raw := rfl

theorem unitIngTail_confidence (raw : Str) (md : MasterData) (toks1 : List IngredientToken)
    (pos3 : Nat) (am1 : AmState) :
    (unitIngTail raw md toks1 pos3 am1).confidence =
      computeConfidence (unitIngTail raw md toks1 pos3 am1).statuses := rfl

theorem genericTail_raw (raw : Str) (md : MasterData) (toks0 : List IngredientToken)
    (pos0 : Nat) (am0 : AmState) : (genericTail raw md toks0 pos0 am0).raw = raw := rfl

theorem genericTail_confidence (raw : Str) (md : MasterData) (toks0 : List IngredientToken)
    (pos0 : Nat) (am0 : AmState) :
    (genericTail raw md toks0 pos0 am0).confidence =
      computeConfidence (genericTail raw md toks0 pos0 am0).statuses := rfl

theorem fillerTail_raw (raw : Str) (md : MasterData) (amountTok : IngredientToken)
    (amount : ℚ) (amountText : Str) (unitStart : Nat) :
    (fillerTail raw md amountTok amount amountText unitStart).raw = raw := rfl

theorem fillerTail_confidence (raw : Str) (md : MasterData) (amountTok : IngredientToken)
    (amount : ℚ) (amountText : Str) (unitStart : Nat) :
    (fillerTail raw md amountTok amount amountText unitStart).confidence =
      computeConfidence (fillerTail raw md amountTok amount amountText unitStart).statuses := rfl

/-- Confidence always comes from `computeConfidence` once the blank-line
early return is excluded. -/
theorem parse_nonblank_confidence (line : Str) (md : MasterData) (h : trimWs line ≠ []) :
    (parseIngredientLine line md).confidence =
      computeConfidence (parseIngredientLine line md).statuses := by
  unfold parseIngredientLine
  have h2 : ¬ trimWs (line.drop (skipWs line 0)) = [] := by
    rw [drop_skipWs_zero, trimWs_dropWhile]
    exact h
  rw [if_neg h2]
  cases h3 : percentMatchAt line (skipWs line 0) with
  | none => exact genericTail_confidence _ _ _ _ _
  | some v =>
    obtain ⟨ds, mlen⟩ := v
    dsimp only
    cases h4 : fillerMatchAt line (skipWs line (skipWs line 0 + mlen)) with
    | none => exact genericTail_confidence _ _ _ _ _
    | some f => exact fillerTail_confidence _ _ _ _ _ _

end CocktailSite

namespace CocktailSite

/-- Claim C1: `parseIngredientLine` is a total function of its two arguments
(it is a structurally terminating Lean definition, with every JavaScript
partial operation modelled totally), and its result is well-formed: the
statuses inhabit their declared unions by construction of the `Statuses`
type, the suggestion and token lists are always present by construction of
`ParsedIngredient`, the `raw` field echoes the input line, and the
confidence is a rational number inside `[0, 1]`. -/
theorem parseIngredientLine_total_wellFormed (line : Str) (md : MasterData) :
    (parseIngredientLine line md).raw = line ∧
    0 ≤ (parseIngredientLine line md).confidence ∧
    (parseIngredientLine line md).confidence ≤ 1 := by
  have hcc : ∀ st : Statuses, 0 ≤ computeConfidence st ∧ computeConfidence st ≤ 1 := by
    intro st
    obtain ⟨a, u, i⟩ := st
    cases a <;> cases u <;> cases i <;>
      exact ⟨by with_unfolding_all decide, by with_unfolding_all decide⟩
  unfold parseIngredientLine
  dsimp only
  split
  · exact ⟨rfl, le_refl 0, zero_le_one⟩
  · cases h3 : percentMatchAt line (skipWs line 0) with
    | none =>
      refine ⟨genericTail_raw _ _ _ _ _, ?_, ?_⟩ <;> rw [genericTail_confidence]
      · exact (hcc _).1
      · exact (hcc _).2
    | some v =>
      obtain ⟨ds, mlen⟩ := v
      dsimp only
      cases h4 : fillerMatchAt line (skipWs line (skipWs line 0 + mlen)) with
      | none =>
        refine ⟨genericTail_raw _ _ _ _ _, ?_, ?_⟩ <;> rw [genericTail_confidence]
        · exact (hcc _).1
        · exact (hcc _).2
      | some f =>
        refine ⟨fillerTail_raw _ _ _ _ _ _, ?_, ?_⟩ <;> rw [fillerTail_confidence]
        · exact (hcc _).1
        · exact (hcc _).2

end CocktailSite

namespace CocktailSite

/-- The source's conditional-chain scoring agrees with the specification's
table, status by status. -/
theorem computeConfidence_eq_spec (st : Statuses) :
    computeConfidence st = specConfidence st := by
  obtain ⟨a, u, i⟩ := st
  cases a <;> cases u <;> cases i <;> with_unfolding_all decide

/-- Claim C3 (amended): for every input line whose trimmed text is nonempty,
the confidence equals the specification's rounded clamped mean of the three
per-field scores, and among such lines the confidence is a pure function of
the statuses.  (The blank line is the one exception the counterexample
exhibits: its early return hard-codes confidence 0 instead of the 0.3 the
formula gives its statuses.) -/
theorem confidence_formula_nonblank (l1 : Str) (md1 : MasterData)
    (l2 : Str) (md2 : MasterData) (h1 : trimWs l1 ≠ []) (h2 : trimWs l2 ≠ []) :
    (parseIngredientLine l1 md1).confidence =
      specConfidence (parseIngredientLine l1 md1).statuses ∧
    ((parseIngredientLine l1 md1).statuses = (parseIngredientLine l2 md2).statuses →
      (parseIngredientLine l1 md1).confidence = (parseIngredientLine l2 md2).confidence) := by
  constructor
  · rw [parse_nonblank_confidence l1 md1 h1, computeConfidence_eq_spec]
  · intro hst
    rw [parse_nonblank_confidence l1 md1 h1, parse_nonblank_confidence l2 md2 h2, hst]

/-- Witness for the amended claim C3 at the concrete line `"-"`. -/
theorem confidence_formula_nonblank_witness :
    (parseIngredientLine (str "-") mdEmpty).confidence =
      specConfidence (parseIngredientLine (str "-") mdEmpty).statuses :=
  (confidence_formula_nonblank (str "-") mdEmpty (str "-") mdEmpty
    (by decide) (by decide)).1

end CocktailSite

namespace CocktailSite

/-- When `resolveUnit` reports `missing`, the whole result is the missing
resolution and the cleaned raw text trims to nothing. -/
theorem resolveUnit_missing_eq (w : Str) (md : MasterData)
    (h : (resolveUnit w md).status = FieldStatus.missing) :
    resolveUnit w md = ⟨none, .missing, []⟩ ∧ trimWs (dropTrailingPunct w) = [] := by
  revert h
  unfold resolveUnit
  dsimp only
  split
  · intro _
    exact ⟨rfl, by assumption⟩
  · split
    · intro h
      simp at h
    · split
      · intro h
        simp at h
      · intro h
        dsimp only at h
        split at h <;> simp at h

/-- When `resolveIngredient` reports `missing`, the raw text trims to
nothing. -/
theorem resolveIngredient_missing_trim (t : Str) (md : MasterData)
    (h : (resolveIngredient t md).status = FieldStatus.missing) : trimWs t = [] := by
  revert h
  unfold resolveIngredient
  dsimp only
  split
  · intro _
    assumption
  · split
    · intro h
      simp at h
    · split
      · intro h
        simp at h
      · intro h
        dsimp only at h
        split at h <;> simp at h

theorem consumeWord_eq (s : Str) (p : Nat) (w : Str) (n : Nat)
    (h : consumeWord s p = some (w, n)) :
    w = (s.drop p).takeWhile isUnitBoundaryChar ∧ n = p + w.length := by
  unfold consumeWord at h
  dsimp only at h
  split at h
  · cases h
  · cases h
    exact ⟨rfl, rfl⟩

/-- When `findUnitCandidate` reports `missing` it either consumed no word at
all, or it consumed exactly the first word, whose punctuation-stripped text
trims to nothing. -/
theorem findUnitCandidate_missing (input : Str) (pos : Nat) (md : MasterData)
    (h : (findUnitCandidate input pos md).status = FieldStatus.missing) :
    (findUnitCandidate input pos md).text = none ∨
    (∃ w, (findUnitCandidate input pos md).text = some w ∧
      (findUnitCandidate input pos md).stop = skipWs input pos + w.length ∧
      w = (input.drop (skipWs input pos)).takeWhile isUnitBoundaryChar ∧
      trimWs (dropTrailingPunct w) = []) := by
  revert h
  unfold findUnitCandidate
  dsimp only
  cases hcw : consumeWord input (skipWs input pos) with
  | none =>
    intro _
    exact Or.inl rfl
  | some v =>
    obtain ⟨w, n⟩ := v
    obtain ⟨hw, hn⟩ := consumeWord_eq _ _ _ _ hcw
    dsimp only
    cases hnm : (resolveUnit w md).name with
    | some nm =>
      intro h
      dsimp only at h
      have := (resolveUnit_missing_eq w md h).1
      rw [this] at hnm
      simp at hnm
    | none =>
      cases hcw2 : consumeWord input (skipWs input n) with
      | none =>
        intro h
        dsimp only at h
        have hmiss := resolveUnit_missing_eq w md h
        exact Or.inr ⟨w, rfl, by rw [hn], hw, hmiss.2⟩
      | some v2 =>
        obtain ⟨w2, n2⟩ := v2
        dsimp only
        cases hnm2 : (resolveUnit (w ++ ' ' :: w2) md).name with
        | some nm2 =>
          intro h
          dsimp only at h
          have := (resolveUnit_missing_eq _ md h).1
          rw [this] at hnm2
          simp at hnm2
        | none =>
          intro h
          dsimp only at h
          have hmiss := resolveUnit_missing_eq w md h
          exact Or.inr ⟨w, rfl, by rw [hn], hw, hmiss.2⟩

end CocktailSite

namespace CocktailSite

/-- The text part of `extractNotes` is already trimmed. -/
theorem extractNotes_trim_fst (s : Str) :
    trimWs (extractNotes s).1 = (extractNotes s).1 := by
  unfold extractNotes
  dsimp only
  split
  · exact trimWs_idem s
  · exact trimWs_idem _

/-- Behaviour of the assembled ingredient field when the ingredient status is
`missing`, abstracted over the ingredient text `T`, the resolved payload `v`
and the filler flag `bF`. -/
theorem ing_result_of_missing (md : MasterData) (T v : Str) (bF : Bool)
    (htrim : trimWs T = T)
    (h : (if !T.isEmpty then (resolveIngredient T md).status else FieldStatus.missing) =
      FieldStatus.missing) :
    (if bF && ((if !T.isEmpty then some v else none) == (none : Option Str) ||
        (if !T.isEmpty then some v else none) == some ([] : Str))
      then some T else (if !T.isEmpty then some v else none)) = none ∨
    (if bF && ((if !T.isEmpty then some v else none) == (none : Option Str) ||
        (if !T.isEmpty then some v else none) == some ([] : Str))
      then some T else (if !T.isEmpty then some v else none)) = some [] := by
  by_cases hT : T.isEmpty
  · have hTnil : T = [] := by simpa using hT
    have hcond : (!T.isEmpty) = false := by simp [hT]
    rw [hcond]
    simp only [if_neg (by simp : ¬ false = true)]
    by_cases hb : bF
    · subst hTnil
      simp [hb]
    · simp [hb]
  · have hcond : (!T.isEmpty) = true := by simp [hT]
    rw [hcond, if_pos rfl] at h
    have := resolveIngredient_missing_trim T md h
    rw [htrim] at this
    subst this
    simp at hT

/-- The unit field of `unitIngTail` when the unit status is `missing`. -/
theorem unitIngTail_unit_missing (raw : Str) (md : MasterData)
    (toks1 : List IngredientToken) (pos3 : Nat) (am1 : AmState)
    (hpos : skipWs raw pos3 = pos3)
    (h : (unitIngTail raw md toks1 pos3 am1).statuses.unit = FieldStatus.missing) :
    (unitIngTail raw md toks1 pos3 am1).unit = none ∨
    ∃ w, (unitIngTail raw md toks1 pos3 am1).unitRaw = some w ∧
      trimWs (dropTrailingPunct w) = [] := by
  have h' : (if (findUnitCandidate raw pos3 md).text.isSome
      then (findUnitCandidate raw pos3 md).status else FieldStatus.missing) =
      FieldStatus.missing := h
  by_cases hsome : (findUnitCandidate raw pos3 md).text.isSome
  · rw [if_pos hsome] at h'
    rcases findUnitCandidate_missing raw pos3 md h' with hnone | ⟨w, hwt, hstop, hww, htrim⟩
    · rw [hnone] at hsome
      simp at hsome
    · right
      refine ⟨w, ?_, htrim⟩
      have hur : (unitIngTail raw md toks1 pos3 am1).unitRaw =
          (if (findUnitCandidate raw pos3 md).text.isSome
            then some (sliceStr raw pos3 (findUnitCandidate raw pos3 md).stop) else none) := rfl
      rw [hpos] at hstop hww
      rw [hur, if_pos hsome, hstop]
      show some (sliceStr raw pos3 (pos3 + w.length)) = some w
      congr 1
      unfold sliceStr
      have harith : pos3 + w.length - pos3 = w.length := by omega
      rw [harith, hww]
      exact take_length_takeWhile _ _
  · left
    have hu : (unitIngTail raw md toks1 pos3 am1).unit =
        (match (findUnitCandidate raw pos3 md).text with
         | some t =>
           some (match (findUnitCandidate raw pos3 md).resolved with
             | some n => n
             | none => if normaliseText t = [] then t else normaliseText t)
         | none => none) := rfl
    rw [hu]
    cases htext : (findUnitCandidate raw pos3 md).text with
    | none => rfl
    | some t =>
      rw [htext] at hsome
      simp at hsome

end CocktailSite

namespace CocktailSite

/-- Variant of `ing_result_of_missing` without the filler fallback, matching
the percent-filler fast path. -/
theorem ing_plain_of_missing (md : MasterData) (T v : Str) (htrim : trimWs T = T)
    (h : (if !T.isEmpty then (resolveIngredient T md).status else FieldStatus.missing) =
      FieldStatus.missing) :
    (if !T.isEmpty then some v else none) = (none : Option Str) := by
  by_cases hT : T.isEmpty
  · simp [hT]
  · rw [if_pos (by simp [hT])] at h
    have hnil := resolveIngredient_missing_trim T md h
    rw [htrim] at hnil
    subst hnil
    simp at hT

/-- The ingredient text of the generic path is already trimmed. -/
theorem ingText_trimmed (raw : Str) (pos5 : Nat) :
    trimWs (ingText raw pos5) = ingText raw pos5 := extractNotes_trim_fst _

/-- The filler path's ingredient text is already trimmed. -/
theorem fIngText_trimmed (raw : Str) (pos : Nat) :
    trimWs (fIngText raw pos) = fIngText raw pos := extractNotes_trim_fst _

/-- A `missing` ingredient status in the generic path means no ingredient
text was present. -/
theorem hasIngB_of_missing (raw : Str) (md : MasterData) (pos5 : Nat)
    (h : ingStatus raw md pos5 = FieldStatus.missing) : ingText raw pos5 = [] := by
  unfold ingStatus at h
  by_cases hT : hasIngB raw pos5
  · rw [if_pos hT] at h
    unfold ingRes at h
    have hnil := resolveIngredient_missing_trim _ md h
    rw [ingText_trimmed] at hnil
    unfold hasIngB at hT
    rw [hnil] at hT
    simp at hT
  · unfold hasIngB at hT
    simpa using hT

/-- The final ingredient value when the ingredient status is `missing`:
either `null`, or the empty string left by the filler fallback. -/
theorem ingFinal_of_missing (raw : Str) (md : MasterData) (pos5 : Nat) (unit : Option Str)
    (h : ingStatus raw md pos5 = FieldStatus.missing) :
    ingFinal raw md pos5 unit = none ∨ ingFinal raw md pos5 unit = some [] := by
  have hnil := hasIngB_of_missing raw md pos5 h
  have hF : hasIngB raw pos5 = false := by
    unfold hasIngB
    rw [hnil]
    rfl
  have hbase : ingBase raw md pos5 = none := by
    unfold ingBase
    rw [hF]
    rfl
  unfold ingFinal
  rw [hbase, hnil]
  by_cases hb : isFillerUnitB unit
  · right
    rw [hb]
    rfl
  · left
    have hb' : isFillerUnitB unit = false := by
      revert hb
      cases isFillerUnitB unit <;> simp
    rw [hb']
    rfl

/-- Projection of the assembled statuses of the generic path. -/
theorem ingTail_statuses_ing (raw : Str) (md : MasterData)
    (toks2 : List IngredientToken) (pos5 : Nat) (am1 : AmState)
    (unit unitRaw : Option Str) (unitStatus : FieldStatus) (unitSuggestions : List Str) :
    (ingTail raw md toks2 pos5 am1 unit unitRaw unitStatus
      unitSuggestions).statuses.ingredient = ingStatus raw md pos5 := by
  unfold ingTail mkParsed
  rfl

/-- Projection of the assembled ingredient of the generic path. -/
theorem ingTail_ingredient (raw : Str) (md : MasterData)
    (toks2 : List IngredientToken) (pos5 : Nat) (am1 : AmState)
    (unit unitRaw : Option Str) (unitStatus : FieldStatus) (unitSuggestions : List Str) :
    (ingTail raw md toks2 pos5 am1 unit unitRaw unitStatus
      unitSuggestions).ingredient = ingFinal raw md pos5 unit := by
  unfold ingTail mkParsed
  rfl

/-- The ingredient field of `ingTail` when the ingredient status is
`missing`. -/
theorem ingTail_ing_missing (raw : Str) (md : MasterData)
    (toks2 : List IngredientToken) (pos5 : Nat) (am1 : AmState)
    (unit unitRaw : Option Str) (unitStatus : FieldStatus) (unitSuggestions : List Str)
    (h : (ingTail raw md toks2 pos5 am1 unit unitRaw unitStatus
      unitSuggestions).statuses.ingredient = FieldStatus.missing) :
    (ingTail raw md toks2 pos5 am1 unit unitRaw unitStatus unitSuggestions).ingredient = none ∨
    (ingTail raw md toks2 pos5 am1 unit unitRaw unitStatus unitSuggestions).ingredient =
      some [] := by
  rw [ingTail_statuses_ing] at h
  rw [ingTail_ingredient]
  exact ingFinal_of_missing raw md pos5 unit h

/-- The same fact read back through `unitIngTail`. -/
theorem unitIngTail_ing_missing (raw : Str) (md : MasterData)
    (toks1 : List IngredientToken) (pos3 : Nat) (am1 : AmState)
    (h : (unitIngTail raw md toks1 pos3 am1).statuses.ingredient = FieldStatus.missing) :
    (unitIngTail raw md toks1 pos3 am1).ingredient = none ∨
    (unitIngTail raw md toks1 pos3 am1).ingredient = some [] := by
  unfold unitIngTail at h ⊢
  exact ingTail_ing_missing _ _ _ _ _ _ _ _ _ h

/-- Projections of the percent-filler fast path. -/
theorem fillerTail_statuses_ing (raw : Str) (md : MasterData)
    (amountTok : IngredientToken) (amount : ℚ) (amountText : Str) (unitStart : Nat) :
    (fillerTail raw md amountTok amount amountText unitStart).statuses.ingredient =
      fIngStatus raw md (skipWs raw (unitStart + 6)) := by
  unfold fillerTail mkParsed
  rfl

theorem fillerTail_ingredient (raw : Str) (md : MasterData)
    (amountTok : IngredientToken) (amount : ℚ) (amountText : Str) (unitStart : Nat) :
    (fillerTail raw md amountTok amount amountText unitStart).ingredient =
      fIngredient raw md (skipWs raw (unitStart + 6)) := by
  unfold fillerTail mkParsed
  rfl

/-- The ingredient field of the percent-filler fast path when the ingredient
status is `missing` is `null` (this path has no filler fallback). -/
theorem fillerTail_ing_missing (raw : Str) (md : MasterData)
    (amountTok : IngredientToken) (amount : ℚ) (amountText : Str) (unitStart : Nat)
    (h : (fillerTail raw md amountTok amount amountText unitStart).statuses.ingredient =
      FieldStatus.missing) :
    (fillerTail raw md amountTok amount amountText unitStart).ingredient = none := by
  rw [fillerTail_statuses_ing] at h
  rw [fillerTail_ingredient]
  unfold fIngStatus at h
  by_cases hT : fHasIng raw (skipWs raw (unitStart + 6))
  · rw [if_pos hT] at h
    unfold fIngRes at h
    have hnil := resolveIngredient_missing_trim _ md h
    rw [fIngText_trimmed] at hnil
    unfold fHasIng at hT
    rw [hnil] at hT
    simp at hT
  · have hF : fHasIng raw (skipWs raw (unitStart + 6)) = false := by
      revert hT
      cases fHasIng raw (skipWs raw (unitStart + 6)) <;> simp
    unfold fIngredient
    rw [hF]
    rfl

end CocktailSite

namespace CocktailSite

theorem fillerTail_statuses_unit (raw : Str) (md : MasterData)
    (amountTok : IngredientToken) (amount : ℚ) (amountText : Str) (unitStart : Nat) :
    (fillerTail raw md amountTok amount amountText unitStart).statuses.unit =
      FieldStatus.ok := by
  unfold fillerTail mkParsed
  rfl

/-- Claim C4 (amended): whenever a field status is `missing` the
corresponding field is null, except for two edge cases the counterexample
forces: the unit may be the non-null consumed word when that word strips
(trailing dots and commas removed) to whitespace only, and the ingredient
may be the empty string left by the filler fallback. -/
theorem unit_ingredient_null_when_missing (line : Str) (md : MasterData) :
    ((parseIngredientLine line md).statuses.unit = FieldStatus.missing →
      (parseIngredientLine line md).unit = none ∨
      ∃ w, (parseIngredientLine line md).unitRaw = some w ∧
        trimWs (dropTrailingPunct w) = []) ∧
    ((parseIngredientLine line md).statuses.ingredient = FieldStatus.missing →
      (parseIngredientLine line md).ingredient = none ∨
      (parseIngredientLine line md).ingredient = some []) := by
  unfold parseIngredientLine
  dsimp only
  split
  · exact ⟨fun _ => Or.inl rfl, fun _ => Or.inl rfl⟩
  · cases h3 : percentMatchAt line (skipWs line 0) with
    | none =>
      constructor
      · intro h
        unfold genericTail at h ⊢
        exact unitIngTail_unit_missing _ _ _ _ _ (skipWs_idem _ _) h
      · intro h
        unfold genericTail at h ⊢
        exact unitIngTail_ing_missing _ _ _ _ _ h
    | some v =>
      obtain ⟨ds, mlen⟩ := v
      dsimp only
      cases h4 : fillerMatchAt line (skipWs line (skipWs line 0 + mlen)) with
      | none =>
        constructor
        · intro h
          unfold genericTail at h ⊢
          exact unitIngTail_unit_missing _ _ _ _ _ (skipWs_idem _ _) h
        · intro h
          unfold genericTail at h ⊢
          exact unitIngTail_ing_missing _ _ _ _ _ h
      | some f =>
        constructor
        · intro h
          rw [fillerTail_statuses_unit] at h
          simp at h
        · intro h
          exact Or.inl (fillerTail_ing_missing _ _ _ _ _ _ h)

/-- Witness for the amended claim C4 at the concrete line `"."`, whose unit
status is `missing`. -/
theorem unit_ingredient_null_when_missing_witness :
    (parseIngredientLine (str ".") mdEmpty).unit = none ∨
    ∃ w, (parseIngredientLine (str ".") mdEmpty).unitRaw = some w ∧
      trimWs (dropTrailingPunct w) = [] :=
  (unit_ingredient_null_when_missing (str ".") mdEmpty).1 (by decide)

end CocktailSite

namespace CocktailSite

/-! ## Claim C6: the resolution algorithm -/

/-- Claim C6: on a non-blank token, a direct normalized index hit returns the
record's canonical name with status `ok` and no suggestions; otherwise the
fuzzy pass over the flattened value list (minimum score 0.7 for units, 0.6
for ingredients) returns, when any candidate survives, the best survivor
with `ok` exactly when its score reaches 0.85 (units) / 0.8 (ingredients)
and `fuzzy` otherwise, listing all survivors as suggestions. -/
theorem resolve_direct_and_fuzzy (raw : Str) (md : MasterData) :
    (∀ record : MasterRecord, trimWs (dropTrailingPunct raw) ≠ [] →
      indexGet md.unitIndex (normaliseText (dropTrailingPunct raw)) = some record →
      resolveUnit raw md = ⟨some record.name, .ok, []⟩) ∧
    (∀ best others, trimWs (dropTrailingPunct raw) ≠ [] →
      indexGet md.unitIndex (normaliseText (dropTrailingPunct raw)) = none →
      suggest (dropTrailingPunct raw) md.unitValues ⟨5, 7/10⟩ = best :: others →
      resolveUnit raw md = ⟨some best.value,
        if 85/100 ≤ best.score then .ok else .fuzzy,
        (best :: others).map (fun e => e.value)⟩) ∧
    (∀ record : MasterRecord, trimWs raw ≠ [] →
      indexGet md.ingredientIndex (normaliseText (trimWs raw)) = some record →
      resolveIngredient raw md = ⟨some record.name, .ok, []⟩) ∧
    (∀ best others, trimWs raw ≠ [] →
      indexGet md.ingredientIndex (normaliseText (trimWs raw)) = none →
      suggest (trimWs raw) md.ingredientValues ⟨5, 6/10⟩ = best :: others →
      resolveIngredient raw md = ⟨some best.value,
        if 8/10 ≤ best.score then .ok else .fuzzy,
        (best :: others).map (fun e => e.value)⟩) := by
  refine ⟨?_, ?_, ?_, ?_⟩
  · intro record hne hidx
    unfold resolveUnit
    rw [if_neg hne, hidx]
  · intro best others hne hidx hsugg
    unfold resolveUnit
    rw [if_neg hne, hidx, hsugg]
  · intro record hne hidx
    unfold resolveIngredient
    rw [if_neg hne, hidx]
  · intro best others hne hidx hsugg
    unfold resolveIngredient
    rw [if_neg hne, hidx, hsugg]

/-- Witness for claim C6: the alias `zentiliter` resolves by direct index hit
to the canonical unit `cl`. -/
theorem resolve_direct_and_fuzzy_witness :
    resolveUnit (str "zentiliter") mdSmall = ⟨some (str "cl"), .ok, []⟩ :=
  (resolve_direct_and_fuzzy (str "zentiliter") mdSmall).1
    ⟨str "cl", [str "zentiliter"], none⟩ (by decide) (by decide)

end CocktailSite

namespace CocktailSite

/-! ## Projection lemmas feeding claim C10 -/

theorem ingTail_am_status (raw : Str) (md : MasterData) (toks2 : List IngredientToken)
    (pos5 : Nat) (am1 : AmState) (unit unitRaw : Option Str) (unitStatus : FieldStatus)
    (unitSuggestions : List Str) :
    (ingTail raw md toks2 pos5 am1 unit unitRaw unitStatus unitSuggestions).statuses.amount =
      am1.status := by
  unfold ingTail mkParsed
  rfl

theorem ingTail_amount (raw : Str) (md : MasterData) (toks2 : List IngredientToken)
    (pos5 : Nat) (am1 : AmState) (unit unitRaw : Option Str) (unitStatus : FieldStatus)
    (unitSuggestions : List Str) :
    (ingTail raw md toks2 pos5 am1 unit unitRaw unitStatus unitSuggestions).amount =
      (if am1.status = .ok then am1.amount else none) := by
  unfold ingTail mkParsed
  rfl

theorem ingTail_amountText (raw : Str) (md : MasterData) (toks2 : List IngredientToken)
    (pos5 : Nat) (am1 : AmState) (unit unitRaw : Option Str) (unitStatus : FieldStatus)
    (unitSuggestions : List Str) :
    (ingTail raw md toks2 pos5 am1 unit unitRaw unitStatus unitSuggestions).amountText =
      am1.amountText := by
  unfold ingTail mkParsed
  rfl

theorem ingTail_tokens (raw : Str) (md : MasterData) (toks2 : List IngredientToken)
    (pos5 : Nat) (am1 : AmState) (unit unitRaw : Option Str) (unitStatus : FieldStatus)
    (unitSuggestions : List Str) :
    (ingTail raw md toks2 pos5 am1 unit unitRaw unitStatus unitSuggestions).tokens =
      ingToks raw toks2 pos5 := by
  unfold ingTail mkParsed
  rfl

/-- The ingredient stage only appends tokens. -/
theorem ingToks_prefix (raw : Str) (toks2 : List IngredientToken) (pos5 : Nat) :
    ∃ rest, ingToks raw toks2 pos5 = toks2 ++ rest := by
  unfold ingToks
  by_cases hI : hasIngB raw pos5
  · simp only [hI, if_true]
    split
    · split
      · exact ⟨_, by rw [List.append_assoc]⟩
      · exact ⟨_, rfl⟩
    · exact ⟨_, rfl⟩
  · simp only [hI, if_false]
    split
    · split
      · exact ⟨_, rfl⟩
      · exact ⟨[], by simp⟩
    · exact ⟨[], by simp⟩

/-- The unit stage only appends tokens. -/
theorem unitIngTail_tokens_prefix (raw : Str) (md : MasterData)
    (toks1 : List IngredientToken) (pos3 : Nat) (am1 : AmState) :
    ∃ rest, (unitIngTail raw md toks1 pos3 am1).tokens = toks1 ++ rest := by
  unfold unitIngTail
  rw [ingTail_tokens]
  by_cases hU : (findUnitCandidate raw pos3 md).text.isSome
  · simp only [hU, if_true]
    obtain ⟨r, hr⟩ := ingToks_prefix raw
      (toks1 ++ [⟨.unit, pos3, (findUnitCandidate raw pos3 md).stop,
        sliceStr raw pos3 (findUnitCandidate raw pos3 md).stop⟩])
      (skipWs raw (findUnitCandidate raw pos3 md).stop)
    exact ⟨_, by rw [hr, List.append_assoc]⟩
  · simp only [hU, if_false]
    exact ingToks_prefix raw toks1 _

theorem unitIngTail_am_status (raw : Str) (md : MasterData)
    (toks1 : List IngredientToken) (pos3 : Nat) (am1 : AmState) :
    (unitIngTail raw md toks1 pos3 am1).statuses.amount = am1.status := by
  unfold unitIngTail
  rw [ingTail_am_status]

theorem unitIngTail_amount (raw : Str) (md : MasterData)
    (toks1 : List IngredientToken) (pos3 : Nat) (am1 : AmState) :
    (unitIngTail raw md toks1 pos3 am1).amount =
      (if am1.status = .ok then am1.amount else none) := by
  unfold unitIngTail
  rw [ingTail_amount]

theorem unitIngTail_amountText (raw : Str) (md : MasterData)
    (toks1 : List IngredientToken) (pos3 : Nat) (am1 : AmState) :
    (unitIngTail raw md toks1 pos3 am1).amountText = am1.amountText := by
  unfold unitIngTail
  rw [ingTail_amountText]

end CocktailSite

namespace CocktailSite

/-- How the generic amount stage transforms the amount state and tokens. -/
theorem genericTail_amount_facts (raw : Str) (md : MasterData)
    (toks0 : List IngredientToken) (pos0 : Nat) (am0 : AmState) :
    (amountMatchAt raw (skipWs raw pos0) = none →
      (genericTail raw md toks0 pos0 am0).statuses.amount = am0.status ∧
      (genericTail raw md toks0 pos0 am0).amountText = am0.amountText ∧
      (genericTail raw md toks0 pos0 am0).amount =
        (if am0.status = .ok then am0.amount else none) ∧
      ∃ rest, (genericTail raw md toks0 pos0 am0).tokens = toks0 ++ rest) ∧
    (∀ m, amountMatchAt raw (skipWs raw pos0) = some m →
      (genericTail raw md toks0 pos0 am0).statuses.amount = (parseAmount m).status ∧
      (genericTail raw md toks0 pos0 am0).amountText = some (parseAmount m).text ∧
      (genericTail raw md toks0 pos0 am0).amount =
        (if (parseAmount m).status = .ok then (parseAmount m).value else none) ∧
      ∃ rest, (genericTail raw md toks0 pos0 am0).tokens =
        toks0 ++ ⟨.amount, skipWs raw pos0, skipWs raw pos0 + m.length,
          sliceStr raw (skipWs raw pos0) (skipWs raw pos0 + m.length)⟩ :: rest) := by
  constructor
  · intro h
    unfold genericTail
    dsimp only
    rw [h]
    refine ⟨?_, ?_, ?_, ?_⟩
    · rw [unitIngTail_am_status]
    · rw [unitIngTail_amountText]
    · rw [unitIngTail_amount]
    · exact unitIngTail_tokens_prefix _ _ _ _ _
  · intro m h
    unfold genericTail
    dsimp only
    rw [h]
    refine ⟨?_, ?_, ?_, ?_⟩
    · rw [unitIngTail_am_status]
    · rw [unitIngTail_amountText]
    · rw [unitIngTail_amount]
    · obtain ⟨r, hr⟩ := unitIngTail_tokens_prefix raw md
        (toks0 ++ [⟨.amount, skipWs raw pos0, skipWs raw pos0 + m.length,
          sliceStr raw (skipWs raw pos0) (skipWs raw pos0 + m.length)⟩]) _ _
      exact ⟨r, by rw [hr, List.append_assoc]; rfl⟩

/-- Claim C10: when a segment begins with a one-to-three digit percent but
the next word is not `filler`, the percent is consumed as an `ok` amount
token carrying that number, the parse continues with the ordinary stages
right after the percent, and a second number there is consumed as a second
amount token whose parse replaces the amount fields. -/
theorem percent_without_filler (line : Str) (md : MasterData) (ds : Str) (mlen : Nat)
    (hblank : trimWs line ≠ [])
    (hpm : percentMatchAt line (skipWs line 0) = some (ds, mlen))
    (hfm : fillerMatchAt line (skipWs line (skipWs line 0 + mlen)) = none) :
    (parseIngredientLine line md =
      genericTail line md
        [⟨.amount, skipWs line 0, skipWs line 0 + mlen,
          sliceStr line (skipWs line 0) (skipWs line 0 + mlen)⟩]
        (skipWs line (skipWs line 0 + mlen))
        ⟨some (digitsToNat ds : ℚ), some (ds ++ ['%']), .ok⟩) ∧
    (amountMatchAt line (skipWs line (skipWs line 0 + mlen)) = none →
      (parseIngredientLine line md).statuses.amount = .ok ∧
      (parseIngredientLine line md).amount = some (digitsToNat ds : ℚ) ∧
      (parseIngredientLine line md).amountText = some (ds ++ ['%']) ∧
      ∃ rest, (parseIngredientLine line md).tokens =
        ⟨.amount, skipWs line 0, skipWs line 0 + mlen,
          sliceStr line (skipWs line 0) (skipWs line 0 + mlen)⟩ :: rest) ∧
    (∀ m, amountMatchAt line (skipWs line (skipWs line 0 + mlen)) = some m →
      (parseIngredientLine line md).statuses.amount = (parseAmount m).status ∧
      (parseIngredientLine line md).amountText = some (parseAmount m).text ∧
      (parseIngredientLine line md).amount =
        (if (parseAmount m).status = .ok then (parseAmount m).value else none) ∧
      ∃ rest, (parseIngredientLine line md).tokens =
        ⟨.amount, skipWs line 0, skipWs line 0 + mlen,
          sliceStr line (skipWs line 0) (skipWs line 0 + mlen)⟩ ::
        ⟨.amount, skipWs line (skipWs line 0 + mlen),
          skipWs line (skipWs line 0 + mlen) + m.length,
          sliceStr line (skipWs line (skipWs line 0 + mlen))
            (skipWs line (skipWs line 0 + mlen) + m.length)⟩ :: rest) := by
  have hq : skipWs line (skipWs line (skipWs line 0 + mlen)) =
      skipWs line (skipWs line 0 + mlen) := skipWs_idem _ _
  have h1 : parseIngredientLine line md =
      genericTail line md
        [⟨.amount, skipWs line 0, skipWs line 0 + mlen,
          sliceStr line (skipWs line 0) (skipWs line 0 + mlen)⟩]
        (skipWs line (skipWs line 0 + mlen))
        ⟨some (digitsToNat ds : ℚ), some (ds ++ ['%']), .ok⟩ := by
    unfold parseIngredientLine
    dsimp only
    rw [if_neg (by rw [drop_skipWs_zero, trimWs_dropWhile]; exact hblank), hpm]
    dsimp only
    rw [hfm]
  refine ⟨h1, ?_, ?_⟩
  · intro hnone
    obtain ⟨hst, htxt, ham, hrest⟩ :=
      (genericTail_amount_facts line md _ _ _).1 (by rw [hq]; exact hnone)
    rw [h1]
    refine ⟨hst, ?_, htxt, hrest⟩
    rw [ham]
    rfl
  · intro m hm
    obtain ⟨hst, htxt, ham, hrest⟩ :=
      (genericTail_amount_facts line md _ _ _).2 m (by rw [hq]; exact hm)
    rw [h1]
    refine ⟨hst, htxt, ham, ?_⟩
    obtain ⟨r, hr⟩ := hrest
    rw [hq] at hr
    exact ⟨r, hr⟩

/-- Witness for claim C10 at the line `"50% 2 cl Gin"`: the percent is one
amount token, the following `2` is a second amount token whose value 2
replaces the amount. -/
theorem percent_without_filler_witness :
    (parseIngredientLine (str "50% 2 cl Gin") mdSmall).statuses.amount = .ok ∧
    (parseIngredientLine (str "50% 2 cl Gin") mdSmall).amountText = some (str "2") ∧
    (parseIngredientLine (str "50% 2 cl Gin") mdSmall).amount = some 2 := by
  obtain ⟨hst, htxt, ham, _⟩ :=
    (percent_without_filler (str "50% 2 cl Gin") mdSmall (str "50") 3
      (by decide) (by decide) (by decide)).2.2 (str "2") (by decide)
  refine ⟨?_, ?_, ?_⟩
  · rw [hst]; decide
  · rw [htxt]; decide
  · rw [ham]; with_unfolding_all decide

end CocktailSite

namespace CocktailSite

/-! ## Claim C9: idempotence of `normaliseText` -/

/-- Table fact: the lowercase image of every lowercase-table entry whose key
is not a decomposable letter is itself stable. -/
theorem lowerPairs_stable : ∀ p ∈ lowerPairs,
    (nfdPairs.find? (fun q => q.1 == p.1)).isSome = true ∨
    ((nfdPairs.find? (fun q => q.1 == p.2)) = none ∧ isDiacritic p.2 = false ∧
      (lowerPairs.find? (fun q => q.1 == p.2)) = none) := by
  decide

/-- Table fact: every non-diacritic component of a decomposition lowercases
to a stable character. -/
theorem nfdPairs_stable : ∀ q ∈ nfdPairs, ∀ d ∈ q.2,
    isDiacritic d = true ∨
    ((nfdPairs.find? (fun r => r.1 == jsToLower d)) = none ∧
      isDiacritic (jsToLower d) = false ∧
      (lowerPairs.find? (fun r => r.1 == jsToLower d)) = none) := by
  decide

theorem jsToLower_of_none (x : Char)
    (h : lowerPairs.find? (fun q => q.1 == x) = none) : jsToLower x = x := by
  unfold jsToLower
  rw [h]
  rfl

theorem nfdChar_of_none (x : Char)
    (h : nfdPairs.find? (fun q => q.1 == x) = none) : nfdChar x = [x] := by
  unfold nfdChar
  rw [h]
  rfl

/-- Every character reachable after one decomposition-strip-lowercase pass is
stable. -/
theorem pass_char_stable (c d : Char) (hd : d ∈ nfdChar c)
    (hnd : isDiacritic d = false) : charStable (jsToLower d) := by
  unfold nfdChar at hd
  cases hfind : nfdPairs.find? (fun p => p.1 == c) with
  | none =>
    rw [hfind] at hd
    simp at hd
    subst hd
    cases hl : lowerPairs.find? (fun p => p.1 == d) with
    | none =>
      have hid : jsToLower d = d := jsToLower_of_none d hl
      rw [hid]
      exact ⟨nfdChar_of_none d hfind, hnd, hid⟩
    | some p =>
      have hp := List.mem_of_find?_eq_some hl
      have hpk : p.1 = d := by
        have := List.find?_some hl
        simpa using this
      have hjp : jsToLower d = p.2 := by
        unfold jsToLower
        rw [hl]
        rfl
      rcases lowerPairs_stable p hp with hkey | ⟨h1, h2, h3⟩
      · rw [hpk, hfind] at hkey
        simp at hkey
      · rw [hjp]
        exact ⟨nfdChar_of_none _ h1, h2, jsToLower_of_none _ h3⟩
  | some q =>
    rw [hfind] at hd
    simp at hd
    have hq := List.mem_of_find?_eq_some hfind
    rcases nfdPairs_stable q hq d hd with hdiac | ⟨h1, h2, h3⟩
    · rw [hdiac] at hnd
      cases hnd
    · exact ⟨nfdChar_of_none _ h1, h2, jsToLower_of_none _ h3⟩

/-- A space is stable. -/
theorem space_stable : charStable ' ' := by
  refine ⟨?_, by decide, ?_⟩ <;> decide

end CocktailSite

namespace CocktailSite

theorem collapseWs_cons2 (a b : Char) (rest : Str) :
    collapseWs (a :: b :: rest) =
      if (isWsChar a && isWsChar b) = true then collapseWs (b :: rest)
      else (if isWsChar a = true then ' ' else a) :: collapseWs (b :: rest) := by
  cases rest <;> rfl

theorem collapseWs_mem (x : Str) : ∀ c ∈ collapseWs x, c = ' ' ∨ c ∈ x := by
  induction x with
  | nil => simp [collapseWs]
  | cons a tail ih =>
    cases tail with
    | nil =>
      intro c hc
      unfold collapseWs at hc
      split at hc <;> simp_all
    | cons b rest =>
      intro c hc
      unfold collapseWs at hc
      split at hc
      · rcases ih c hc with h | h
        · exact Or.inl h
        · exact Or.inr (List.mem_cons_of_mem a h)
      · rcases List.mem_cons.mp hc with h | h
        · split at h
          · exact Or.inl h
          · exact Or.inr (h ▸ List.mem_cons_self a _)
        · rcases ih c h with h2 | h2
          · exact Or.inl h2
          · exact Or.inr (List.mem_cons_of_mem a h2)

theorem collapseWs_ne_nil (x : Str) (h : x ≠ []) : collapseWs x ≠ [] := by
  cases x with
  | nil => exact absurd rfl h
  | cons a tail =>
    cases tail with
    | nil =>
      unfold collapseWs
      split <;> simp
    | cons b rest =>
      unfold collapseWs
      split
      · exact collapseWs_ne_nil (b :: rest) (by simp)
      · simp

theorem collapseWs_head (a : Char) (rest : Str) (ha : isWsChar a = false) :
    collapseWs (a :: rest) = a :: collapseWs rest := by
  cases rest with
  | nil => simp [collapseWs, ha]
  | cons b r2 => simp [collapseWs, ha]

theorem collapseWs_getLast (x : Str) (c : Char) (hc : x.getLast? = some c)
    (hnw : isWsChar c = false) : (collapseWs x).getLast? = some c := by
  induction x with
  | nil => simp at hc
  | cons a tail ih =>
    cases tail with
    | nil =>
      simp at hc
      subst hc
      unfold collapseWs
      rw [hnw]
      rfl
    | cons b rest =>
      rw [List.getLast?_cons_cons] at hc
      unfold collapseWs
      split
      · exact ih hc
      · have hne := collapseWs_ne_nil (b :: rest) (by simp)
        cases hcb : collapseWs (b :: rest) with
        | nil => exact absurd hcb hne
        | cons d ds =>
          rw [List.getLast?_cons_cons, ← hcb]
          exact ih hc

theorem collapseWs_canon (x : Str) : wsCanon (collapseWs x) := by
  induction x with
  | nil => exact ⟨by simp [collapseWs], by simp [collapseWs]⟩
  | cons a tail ih =>
    cases tail with
    | nil =>
      constructor
      · intro c hc hw
        unfold collapseWs at hc
        split at hc <;> simp_all
      · unfold collapseWs
        split <;> simp
    | cons b rest =>
      obtain ⟨ih1, ih2⟩ := ih
      by_cases hab : isWsChar a = true ∧ isWsChar b = true
      · constructor
        · intro c hc hw
          unfold collapseWs at hc
          rw [if_pos (by simp [hab.1, hab.2])] at hc
          exact ih1 c hc hw
        · unfold collapseWs
          rw [if_pos (by simp [hab.1, hab.2])]
          exact ih2
      · have hsplit : collapseWs (a :: b :: rest) =
            (if isWsChar a then ' ' else a) :: collapseWs (b :: rest) := by
          rw [collapseWs_cons2, if_neg (by simpa using hab)]
        constructor
        · intro c hc hw
          rw [hsplit] at hc
          rcases List.mem_cons.mp hc with h | h
          · subst h
            split at hw <;> simp_all
          · exact ih1 c h hw
        · rw [hsplit]
          cases hcb : collapseWs (b :: rest) with
          | nil => simp
          | cons d ds =>
            rw [List.chain'_cons]
            constructor
            · intro ⟨h1, h2⟩
              by_cases hb : isWsChar b = true
              · have ha' : isWsChar a = false := by
                  rcases Bool.eq_false_or_eq_true (isWsChar a) with h | h
                  · exact absurd ⟨h, hb⟩ hab
                  · exact h
                split at h1 <;> simp_all
              · have hb' : isWsChar b = false := by simpa using hb
                rw [collapseWs_head b rest hb'] at hcb
                injection hcb with hbd _
                rw [← hbd, hb'] at h2
                exact Bool.false_ne_true h2
            · rw [← hcb]
              exact ih2

theorem collapseWs_fixed (x : Str) (h : wsCanon x) : collapseWs x = x := by
  induction x with
  | nil => rfl
  | cons a tail ih =>
    obtain ⟨h1, h2⟩ := h
    cases tail with
    | nil =>
      unfold collapseWs
      split
      · rename_i hw
        rw [h1 a (by simp) hw]
      · rfl
    | cons b rest =>
      have hnot : ¬(isWsChar a = true ∧ isWsChar b = true) :=
        (List.chain'_cons.mp h2).1
      unfold collapseWs
      rw [if_neg (by simpa using hnot)]
      have htail : collapseWs (b :: rest) = b :: rest :=
        ih ⟨fun c hc hw => h1 c (List.mem_cons_of_mem a hc) hw,
          (List.chain'_cons.mp h2).2⟩
      rw [htail]
      split
      · rename_i hw
        rw [h1 a (by simp) hw]
      · rfl

end CocktailSite

namespace CocktailSite

theorem flatMap_stable (l : Str) (h : ∀ c ∈ l, nfdChar c = [c]) :
    l.flatMap nfdChar = l := by
  induction l with
  | nil => rfl
  | cons a t ih =>
    have ha := h a (List.mem_cons_self a t)
    have ht' := ih (fun c hc => h c (List.mem_cons_of_mem a hc))
    simp only [List.flatMap_cons, ha, ht']
    rfl

theorem filter_stable (l : Str) (h : ∀ c ∈ l, isDiacritic c = false) :
    l.filter (fun c => !isDiacritic c) = l := by
  refine List.filter_eq_self.mpr ?_
  intro c hc
  rw [h c hc]
  rfl

theorem map_stable (l : Str) (h : ∀ c ∈ l, jsToLower c = c) :
    l.map jsToLower = l := by
  induction l with
  | nil => rfl
  | cons a t ih =>
    rw [List.map_cons, h a (List.mem_cons_self a t),
      ih (fun c hc => h c (List.mem_cons_of_mem a hc))]

theorem dropWhile_eq_self_of_head (p : Char → Bool) (l : Str)
    (h : ∀ c, l.head? = some c → p c = false) : l.dropWhile p = l := by
  cases l with
  | nil => rfl
  | cons a t =>
    rw [List.dropWhile_cons, h a rfl]
    rfl

theorem head_dropWhile_not (p : Char → Bool) (l : Str) (c : Char)
    (h : (l.dropWhile p).head? = some c) : p c = false := by
  induction l with
  | nil => simp [List.dropWhile] at h
  | cons a t ih =>
    rw [List.dropWhile_cons] at h
    by_cases hp : p a = true
    · rw [if_pos hp] at h
      exact ih h
    · rw [if_neg hp] at h
      simp at h
      rw [← h]
      simpa using hp

theorem trimWs_subset (s : Str) : ∀ c ∈ trimWs s, c ∈ s := by
  intro c hc
  unfold trimWs at hc
  rw [List.mem_reverse] at hc
  have h1 := (List.dropWhile_suffix isWsChar).subset hc
  rw [List.mem_reverse] at h1
  exact (List.dropWhile_suffix isWsChar).subset h1

theorem trimWs_eq_self (x : Str)
    (hh : ∀ c, x.head? = some c → isWsChar c = false)
    (hl : ∀ c, x.getLast? = some c → isWsChar c = false) : trimWs x = x := by
  unfold trimWs
  rw [dropWhile_eq_self_of_head isWsChar x hh]
  rw [dropWhile_eq_self_of_head isWsChar x.reverse
    (fun c hc => hl c (by rwa [List.head?_reverse] at hc))]
  exact List.reverse_reverse x

theorem trimWs_prefix_dropWhile (s : Str) : trimWs s <+: s.dropWhile isWsChar := by
  unfold trimWs
  rw [← List.reverse_suffix]
  simpa using List.dropWhile_suffix (l := (s.dropWhile isWsChar).reverse) isWsChar

theorem trimWs_head_not_ws (s : Str) (c : Char)
    (h : (trimWs s).head? = some c) : isWsChar c = false := by
  have hpre := trimWs_prefix_dropWhile s
  rcases dropWhile_self_head isWsChar (s.dropWhile isWsChar) (dw_idem isWsChar s) with
    h0 | ⟨d, t, heq, hd⟩
  · rw [h0, List.prefix_nil] at hpre
    rw [hpre] at h
    simp at h
  · rw [heq] at hpre
    cases hx : trimWs s with
    | nil =>
      rw [hx] at h
      simp at h
    | cons e es =>
      rw [hx] at hpre h
      have he : e = d := (List.cons_prefix_cons.mp hpre).1
      simp at h
      rw [← h, he]
      exact hd

theorem trimWs_getLast_not_ws (s : Str) (c : Char)
    (h : (trimWs s).getLast? = some c) : isWsChar c = false := by
  unfold trimWs at h
  rw [List.getLast?_reverse] at h
  exact head_dropWhile_not isWsChar _ c h

theorem collapse_trim_head_not_ws (m : Str) (c : Char)
    (h : (collapseWs (trimWs m)).head? = some c) : isWsChar c = false := by
  cases hv : trimWs m with
  | nil =>
    rw [hv] at h
    simp [collapseWs] at h
  | cons a r =>
    have haw : isWsChar a = false := trimWs_head_not_ws m a (by rw [hv]; rfl)
    rw [hv, collapseWs_head a r haw] at h
    simp at h
    rw [← h]
    exact haw

theorem collapse_trim_getLast_not_ws (m : Str) (c : Char)
    (h : (collapseWs (trimWs m)).getLast? = some c) : isWsChar c = false := by
  cases hv : trimWs m with
  | nil =>
    rw [hv] at h
    simp [collapseWs] at h
  | cons a r =>
    cases hg : (a :: r).getLast? with
    | none =>
      rw [List.getLast?_eq_none_iff] at hg
      exact absurd hg (List.cons_ne_nil a r)
    | some c0 =>
      have hw0 : isWsChar c0 = false := trimWs_getLast_not_ws m c0 (by rw [hv]; exact hg)
      rw [hv, collapseWs_getLast (a :: r) c0 hg hw0] at h
      injection h with h2
      rw [← h2]
      exact hw0

theorem normaliseText_stable_mem (s : Str) :
    ∀ c ∈ normaliseText s, charStable c := by
  intro c hc
  unfold normaliseText at hc
  rcases collapseWs_mem _ c hc with h | h
  · rw [h]
    exact space_stable
  · have h2 := trimWs_subset _ c h
    rw [List.mem_map] at h2
    obtain ⟨d, hd, hdc⟩ := h2
    rw [List.mem_filter] at hd
    obtain ⟨hd1, hd2⟩ := hd
    rw [List.mem_flatMap] at hd1
    obtain ⟨e, he, hde⟩ := hd1
    rw [← hdc]
    exact pass_char_stable e d hde (by simpa using hd2)

end CocktailSite

namespace CocktailSite

/-- C9: text normalization is idempotent — for every string `s`,
`normaliseText (normaliseText s) = normaliseText s`, where `normaliseText`
NFD-decomposes, strips combining diacritical marks, lowercases, trims, and
collapses internal whitespace runs to single spaces. -/
theorem normaliseText_idem (s : Str) :
    normaliseText (normaliseText s) = normaliseText s := by
  set t := normaliseText s with ht
  have hstable : ∀ c ∈ t, charStable c := normaliseText_stable_mem s
  have hflat : t.flatMap nfdChar = t := flatMap_stable t (fun c hc => (hstable c hc).1)
  have hfilter : (t.flatMap nfdChar).filter (fun c => !isDiacritic c) = t := by
    rw [hflat]
    exact filter_stable t (fun c hc => (hstable c hc).2.1)
  have hmap : ((t.flatMap nfdChar).filter (fun c => !isDiacritic c)).map jsToLower = t := by
    rw [hfilter]
    exact map_stable t (fun c hc => (hstable c hc).2.2)
  have hcanon : wsCanon t := by
    rw [ht]
    unfold normaliseText
    exact collapseWs_canon _
  have hh : ∀ c, t.head? = some c → isWsChar c = false := by
    intro c hc
    rw [ht] at hc
    unfold normaliseText at hc
    exact collapse_trim_head_not_ws _ c hc
  have hl : ∀ c, t.getLast? = some c → isWsChar c = false := by
    intro c hc
    rw [ht] at hc
    unfold normaliseText at hc
    exact collapse_trim_getLast_not_ws _ c hc
  have htrim : trimWs t = t := trimWs_eq_self t hh hl
  have hcol : collapseWs t = t := collapseWs_fixed t hcanon
  show normaliseText t = t
  unfold normaliseText
  rw [hmap, htrim, hcol]

end CocktailSite

namespace CocktailSite

theorem depthFrom_eq (value : Str) (s i : Nat) :
    depthFrom value s i = (sliceStr value s i).foldl dstep 0 := rfl

theorem sliceStr_split (value : Str) (s t j : Nat) (h1 : s ≤ t) (h2 : t ≤ j) :
    sliceStr value s j = sliceStr value s t ++ sliceStr value t j := by
  unfold sliceStr
  have hd : value.drop t = (value.drop s).drop (t - s) := by
    rw [List.drop_drop]
    congr 1
    omega
  rw [hd]
  have hj : j - s = (t - s) + (j - t) := by omega
  rw [hj, List.take_add]

theorem foldl_dstep_ws (l : Str) (d : Nat) (h : ∀ c ∈ l, isWsChar c = true) :
    l.foldl dstep d = d := by
  induction l generalizing d with
  | nil => rfl
  | cons a t ih =>
    have ha := h a (List.mem_cons_self a t)
    have hne1 : ¬(a = '(') := by
      intro he
      rw [he] at ha
      exact absurd ha (by decide)
    have hne2 : ¬(a = ')') := by
      intro he
      rw [he] at ha
      exact absurd ha (by decide)
    rw [List.foldl_cons]
    have hstep : dstep d a = d := by
      unfold dstep
      rw [if_neg hne1, if_neg ?hc]
      case hc =>
        intro hcon
        rw [Bool.and_eq_true] at hcon
        exact hne2 (of_decide_eq_true hcon.1)
    rw [hstep]
    exact ih d (fun c hc => h c (List.mem_cons_of_mem a hc))

theorem depthFrom_self (value : Str) (s : Nat) : depthFrom value s s = 0 := by
  rw [depthFrom_eq]
  unfold sliceStr
  simp

theorem sliceStr_succ (value : Str) (s i : Nat) (h : s ≤ i) :
    sliceStr value s (i + 1) = sliceStr value s i ++ (value.get? i).toList := by
  unfold sliceStr
  have h1 : i + 1 - s = (i - s) + 1 := by omega
  rw [h1, List.take_succ, List.getElem?_drop]
  have h2 : s + (i - s) = i := by omega
  rw [h2, ← List.get?_eq_getElem?]

theorem depthFrom_succ (value : Str) (s i : Nat) (h : s ≤ i) :
    depthFrom value s (i + 1) =
      dstep (depthFrom value s i) ((value.get? i).getD '\n') := by
  rw [depthFrom_eq, depthFrom_eq, sliceStr_succ value s i h, List.foldl_append]
  cases hg : value.get? i with
  | none =>
    show dstep ((sliceStr value s i).foldl dstep 0) '\n' =
      dstep ((sliceStr value s i).foldl dstep 0) ((none : Option Char).getD '\n')
    rfl
  | some c => rfl

theorem depthFrom_shift (value : Str) (s t j : Nat) (h1 : s ≤ t) (h2 : t ≤ j)
    (hws : ∀ c ∈ sliceStr value s t, isWsChar c = true) :
    depthFrom value s j = depthFrom value t j := by
  rw [depthFrom_eq, depthFrom_eq, sliceStr_split value s t j h1 h2, List.foldl_append,
    foldl_dstep_ws (sliceStr value s t) 0 hws]

end CocktailSite

namespace CocktailSite

theorem pushSegment_ok (value : Str) (s i : Nat) (seg : IngredientSegment)
    (hp : pushSegment value s i = some seg) (hreg : segRegionOk value s i) :
    segRegionOk value seg.start seg.stop := by
  unfold pushSegment at hp
  dsimp only at hp
  split at hp
  · cases hp
  · injection hp with hp
    rw [← hp]
    dsimp only
    set L := ((sliceStr value s i).takeWhile isWsChar).length with hL
    set T := (((sliceStr value s i).dropWhile isWsChar).reverse.takeWhile isWsChar).length
      with hT
    have hLle : L ≤ i - s := by
      have h1 : L ≤ (sliceStr value s i).length :=
        (List.takeWhile_prefix isWsChar).length_le
      have h2 : (sliceStr value s i).length ≤ i - s := by
        unfold sliceStr
        exact List.length_take_le _ _
      omega
    have hslice : sliceStr value s (s + L) = (sliceStr value s i).takeWhile isWsChar := by
      unfold sliceStr
      have h1 : s + L - s = L := by omega
      rw [h1]
      have h2 : (value.drop s).take L = ((value.drop s).take (i - s)).take L := by
        rw [List.take_take]
        congr 1
        omega
      rw [h2]
      exact take_length_takeWhile isWsChar _
    intro j hj1 hj2
    have hj1' : s ≤ j := by omega
    have hj2' : j < i := by
      have := Nat.sub_le i T
      omega
    obtain ⟨hLB, hcm⟩ := hreg j hj1' hj2'
    refine ⟨hLB, ?_⟩
    intro hc
    rcases hcm hc with hdec | hpos
    · exact Or.inl hdec
    · right
      rw [← depthFrom_shift value s (s + L) j (Nat.le_add_right s L) hj1 ?hws]
      · exact hpos
      case hws =>
        rw [hslice]
        intro c hcm2
        exact List.mem_takeWhile_imp hcm2

end CocktailSite

namespace CocktailSite

theorem segLoop_ok (value : Str) (fuel : Nat) :
    ∀ (i : Nat) (start : Option Nat) (depth : Nat),
      (start = none → depth = 0) →
      (∀ s, start = some s → s ≤ i ∧ depth = depthFrom value s i ∧ segRegionOk value s i) →
      ∀ seg ∈ segLoop value fuel i start depth, segRegionOk value seg.start seg.stop := by
  induction fuel with
  | zero =>
    intro i start depth _ _ seg hseg
    simp [segLoop] at hseg
  | succ fuel ih =>
    intro i start depth hnone hsome seg hseg
    cases start with
    | none =>
      have hd0 : depth = 0 := hnone rfl
      subst hd0
      unfold segLoop at hseg
      dsimp only at hseg
      split at hseg
      · rename_i hcond
        refine ih (i + 1) (some i) _ (fun h => by cases h) ?_ seg hseg
        intro s hs
        injection hs with hs
        subst hs
        refine ⟨Nat.le_succ i, ?_, ?_⟩
        · rw [depthFrom_succ value i i (le_refl i), depthFrom_self]
        · intro j hj1 hj2
          have hj : j = i := by omega
          subst hj
          refine ⟨⟨?_, ?_⟩, ?_⟩
          · intro he
            rw [he] at hcond
            simp +decide at hcond
          · intro he
            rw [he] at hcond
            simp +decide at hcond
          · intro he
            rw [he] at hcond
            simp +decide at hcond
            exact Or.inl hcond.2
      · rename_i hcond
        refine ih (i + 1) none _ (fun _ => ?_) (fun s2 hs2 => by cases hs2) seg hseg
        by_cases hpar : (value.get? i).getD '\n' = '('
        · exfalso
          cases hg : value.get? i with
          | none =>
            rw [hg] at hpar
            exact absurd hpar (by decide)
          | some x =>
            have hxp : x = '(' := by
              rw [hg] at hpar
              exact hpar
            subst hxp
            have hlt : i < value.length := by
              by_contra hn
              push_neg at hn
              rw [List.get?_eq_getElem?, List.getElem?_eq_none hn] at hg
              cases hg
            have hix : ¬(i = value.length) := by omega
            exact hcond (by rw [hg]; simp +decide [hix])
        · unfold dstep
          rw [if_neg hpar]
          simp +decide
    | some s =>
      obtain ⟨hsi, hdep, hreg⟩ := hsome s rfl
      subst hdep
      unfold segLoop at hseg
      dsimp only at hseg
      split at hseg
      · rename_i hb
        cases hp : pushSegment value s i with
        | none =>
          rw [hp] at hseg
          dsimp only at hseg
          exact ih (i + 1) none 0 (fun _ => rfl) (fun s2 hs2 => by cases hs2) seg hseg
        | some sg =>
          rw [hp] at hseg
          dsimp only at hseg
          rcases List.mem_cons.mp hseg with he | ht
          · rw [he]
            exact pushSegment_ok value s i sg hp hreg
          · exact ih (i + 1) none 0 (fun _ => rfl) (fun s2 hs2 => by cases hs2) seg ht
      · rename_i hb
        refine ih (i + 1) (some s) _ (fun h => by cases h) ?_ seg hseg
        intro s2 hs2
        injection hs2 with hs2
        subst hs2
        refine ⟨by omega, ?_, ?_⟩
        · rw [depthFrom_succ value s i hsi]
        · intro j hj1 hj2
          by_cases hji : j < i
          · exact hreg j hj1 hji
          · have hj : j = i := by omega
            subst hj
            refine ⟨⟨?_, ?_⟩, ?_⟩
            · intro he
              rw [he] at hb
              simp +decide at hb
            · intro he
              rw [he] at hb
              simp +decide at hb
            · intro he
              by_cases hdec : isDecimalComma value j = true
              · exact Or.inl hdec
              · right
                have hdecf : isDecimalComma value j = false := by
                  cases hx : isDecimalComma value j
                  · rfl
                  · exact absurd hx hdec
                rw [he] at hb
                simp +decide [dstep, hdecf] at hb
                omega

end CocktailSite

namespace CocktailSite

/-- C7: `splitIngredientTuples` puts a segment boundary at every line break
unconditionally and at a comma only when the parenthesis depth is zero and
the comma is not a decimal comma.  Concretely, `"1,5 cl Sirup"` stays one
segment with the full text; in general no produced segment contains a line
break, and every comma inside a produced segment is a decimal comma or sits
at positive parenthesis depth. -/
theorem splitIngredientTuples_boundaries :
    splitIngredientTuples (str "1,5 cl Sirup") =
      [⟨str "1,5 cl Sirup", 0, 12⟩] ∧
    ∀ (value : Str), ∀ seg ∈ splitIngredientTuples value,
      ∀ j, seg.start ≤ j → j < seg.stop →
        (value.get? j ≠ some '\n' ∧ value.get? j ≠ some '\r') ∧
        (value.get? j = some ',' →
          isDecimalComma value j = true ∨ 0 < depthFrom value seg.start j) := by
  constructor
  · decide
  · intro value seg hseg
    exact segLoop_ok value (value.length + 1) 0 none 0 (fun _ => rfl)
      (fun s2 hs2 => by cases hs2) seg hseg

/-- Witness for the boundary property: the comma of `"2 cl (Rum, braun)"`
sits at depth 1, and the sole produced segment keeps it. -/
theorem splitIngredientTuples_boundaries_witness :
    ((str "2 cl (Rum, braun)").get? 9 ≠ some '\n' ∧
      (str "2 cl (Rum, braun)").get? 9 ≠ some '\r') ∧
    ((str "2 cl (Rum, braun)").get? 9 = some ',' →
      isDecimalComma (str "2 cl (Rum, braun)") 9 = true ∨
      0 < depthFrom (str "2 cl (Rum, braun)") 0 9) :=
  splitIngredientTuples_boundaries.2 (str "2 cl (Rum, braun)")
    ⟨str "2 cl (Rum, braun)", 0, 17⟩ (by decide) 9 (by decide) (by decide)

end CocktailSite
